import Mathlib

/-!
Verification of the hash-consed regular-expression store of `derivre`
(`src/controllers/derivre/src/ast.rs`), shallowly embedded in Lean.

Machine integers (`u32`) are modelled as `Nat`; the only place where
32-bit overflow can occur in the source (`min + 1` in `mk_repeat`) is
modelled with an explicit `% 2^32`.  References (`ExprRef`) are plain
`Nat`s; `0` is the invalid sentinel, exactly as in the source.
-/

namespace Derivre

/-- Modelled from the spec: the record heap `VecHashMap` of the `hashcons`
module, whose source is not part of the snippet.  Per spec §4.1 it is an
append-only arena of word records, deduplicated by content: `insert`
returns the existing identifier when an identical word sequence is
present, otherwise appends and returns `len + 1`.  Identifier `0` is
reserved as invalid, so record `i` (0-based) has identifier `i + 1`. -/
structure VecHashMap where
  records : List (List Nat)
deriving DecidableEq

/-- Scan for a record equal to `ws`, returning its 0-based index.
Content-addressed lookup per spec §4.1 step 2 ("for each candidate,
compare stored words against input"). -/
def findRec (ws : List Nat) : List (List Nat) → Nat → Option Nat
  | [], _ => none
  | w :: rest, i => if w = ws then some i else findRec ws rest (i + 1)

def VecHashMap.new : VecHashMap := ⟨[]⟩

def VecHashMap.len (m : VecHashMap) : Nat := m.records.length

def VecHashMap.get (m : VecHashMap) (r : Nat) : Option (List Nat) :=
  if r = 0 then none else m.records.get? (r - 1)

def VecHashMap.insert (m : VecHashMap) (ws : List Nat) : VecHashMap × Nat :=
  match findRec ws m.records 0 with
  | some i => (m, i + 1)
  | none => (⟨m.records ++ [ws]⟩, m.records.length + 1)

/-- The decoded view of a stored record (`enum Expr` in the source).
Flags are carried as the raw high-bits word, as in `Expr::Not(ExprFlags, ..)`. -/
inductive Expr where
  | emptyString
  | noMatch
  | byte (b : Nat)
  | byteSet (s : List Nat)
  | enot (f : Nat) (e : Nat)
  | erepeat (f : Nat) (e : Nat) (lo : Nat) (hi : Nat)
  | concat (f : Nat) (es : List Nat)
  | eor (f : Nat) (es : List Nat)
  | eand (f : Nat) (es : List Nat)
deriving DecidableEq

/-- `ExprFlags::NULLABLE = 1 << 8`. -/
def nullableFlag : Nat := 256

/-- `ExprFlags::is_nullable`: test bit 8. -/
def flagIsNullable (f : Nat) : Bool := f &&& nullableFlag != 0

/-- `ExprFlags::from_nullable`. -/
def fromNullable (b : Bool) : Nat := if b then nullableFlag else 0

/-- `ExprFlags::encode`: `flags | tag`. -/
def encodeFT (f tag : Nat) : Nat := f ||| tag

/-- Tag byte of a record's first word (`s[0] & 0xff`). -/
def tagOf (w : Nat) : Nat := w % 256

/-- Flag bits of a record's first word (`s[0] & !0xff`). -/
def flagsOf (w : Nat) : Nat := w - w % 256

/-- Tag values of `enum ExprTag` (contiguous from 1). -/
def tagEmptyString : Nat := 1
def tagNoMatch : Nat := 2
def tagByte : Nat := 3
def tagByteSet : Nat := 4
def tagNot : Nat := 5
def tagRepeat : Nat := 6
def tagConcat : Nat := 7
def tagOr : Nat := 8
def tagAnd : Nat := 9

/-- `Expr::serialize`. Leaf variants are written with zero flags
(`zf`), composite variants with their stored flag word. -/
def Expr.serialize : Expr → List Nat
  | .emptyString => [encodeFT 0 tagEmptyString]
  | .noMatch => [encodeFT 0 tagNoMatch]
  | .byte b => [encodeFT 0 tagByte, b]
  | .byteSet s => encodeFT 0 tagByteSet :: s
  | .enot f e => [encodeFT f tagNot, e]
  | .erepeat f e lo hi => [encodeFT f tagRepeat, e, lo, hi]
  | .concat f es => encodeFT f tagConcat :: es
  | .eor f es => encodeFT f tagOr :: es
  | .eand f es => encodeFT f tagAnd :: es

/-- `Expr::from_slice`.  The source panics on an empty slice, a tag
outside `1..=9`, or a missing payload word; those cases are `none`. -/
def Expr.from_slice : List Nat → Option Expr
  | [] => none
  | w :: rest =>
    if tagOf w = 1 then some .emptyString
    else if tagOf w = 2 then some .noMatch
    else if tagOf w = 3 then
      match rest with
      | b :: _ => some (.byte (b % 256))
      | [] => none
    else if tagOf w = 4 then some (.byteSet rest)
    else if tagOf w = 5 then
      match rest with
      | e :: _ => some (.enot (flagsOf w) e)
      | [] => none
    else if tagOf w = 6 then
      match rest with
      | e :: a :: b :: _ => some (.erepeat (flagsOf w) e a b)
      | _ => none
    else if tagOf w = 7 then some (.concat (flagsOf w) rest)
    else if tagOf w = 8 then some (.eor (flagsOf w) rest)
    else if tagOf w = 9 then some (.eand (flagsOf w) rest)
    else none

/-- `Expr::get_flags` followed by `is_nullable`: leaves report `ZERO`. -/
def Expr.nullable : Expr → Bool
  | .emptyString | .noMatch | .byte _ | .byteSet _ => false
  | .enot f _ => flagIsNullable f
  | .erepeat f _ _ _ => flagIsNullable f
  | .concat f _ => flagIsNullable f
  | .eor f _ => flagIsNullable f
  | .eand f _ => flagIsNullable f

def nullableOpt : Option Expr → Bool
  | some e => e.nullable
  | none => false

/-- `struct ExprSet`. -/
structure ExprSet where
  exprs : VecHashMap
  alphabet_size : Nat
  alphabet_words : Nat
deriving DecidableEq

/-- `ExprSet::new`: pre-populates the five reserved records and asserts
their identifiers (1..5). -/
def ExprSet.new (alphabet_size : Nat) : ExprSet :=
  let alphabet_words := (alphabet_size + 31) / 32
  let m0 : VecHashMap := VecHashMap.new
  let m1 := (m0.insert (Expr.emptyString.serialize)).1
  let m2 := (m1.insert (Expr.noMatch.serialize)).1
  let m3 := (m2.insert ((Expr.byteSet (List.replicate alphabet_words 4294967295)).serialize)).1
  let m4 := (m3.insert ((Expr.erepeat nullableFlag 3 0 4294967295).serialize)).1
  let m5 := (m4.insert ((Expr.erepeat 0 3 1 4294967295).serialize)).1
  { exprs := m5, alphabet_size := alphabet_size, alphabet_words := alphabet_words }

def ExprSet.len (s : ExprSet) : Nat := s.exprs.len

/-- `ExprSet::mk`: serialize and hash-cons (named `mkExpr` because `ExprSet.mk`
is taken by the structure constructor). -/
def ExprSet.mkExpr (s : ExprSet) (e : Expr) : ExprSet × Nat :=
  let p := s.exprs.insert e.serialize
  ({ s with exprs := p.1 }, p.2)

/-- `ExprSet::get`. -/
def ExprSet.get (s : ExprSet) (r : Nat) : Option Expr :=
  (s.exprs.get r).bind Expr.from_slice

/-- `ExprSet::get_flags` (the caller guarantees validity; an invalid
reference panics in the source and reads as flags `0` here). -/
def ExprSet.get_flags (s : ExprSet) (r : Nat) : Nat :=
  flagsOf (((s.exprs.get r).getD []).headD 0)

/-- `ExprSet::is_nullable`. -/
def ExprSet.is_nullable (s : ExprSet) (r : Nat) : Bool :=
  flagIsNullable (s.get_flags r)

/-- `ExprSet::get_tag` (`none` where the source would panic). -/
def ExprSet.get_tag (s : ExprSet) (r : Nat) : Option Nat :=
  (s.exprs.get r).map (fun ws => tagOf (ws.headD 0))

/-- `ExprSet::get_args`. -/
def ExprSet.get_args (s : ExprSet) (r : Nat) : List Nat :=
  match s.exprs.get r with
  | none => []
  | some ws =>
    let t := tagOf (ws.headD 0)
    if t = 7 ∨ t = 8 ∨ t = 9 then ws.tail
    else if t = 5 ∨ t = 6 then ws.tail.take 1
    else []

/-- `ExprSet::mk_byte`. -/
def ExprSet.mk_byte (s : ExprSet) (b : Nat) : ExprSet × Nat :=
  s.mkExpr (.byte b)

/-- `ExprSet::mk_byte_set` (the length assertion is a hypothesis of the
construction relation below). -/
def ExprSet.mk_byte_set (s : ExprSet) (bits : List Nat) : ExprSet × Nat :=
  if bits.all (fun x => x = 0) then (s, 2)
  else s.mkExpr (.byteSet bits)

/-- `ExprSet::mk_repeat`.  `min + 1` is a `u32` addition in the source;
its release-build wraparound is the explicit `% 2^32`. -/
def ExprSet.mk_repeat (s : ExprSet) (e lo hi : Nat) : ExprSet × Nat :=
  if e = 2 then
    if lo = 0 then (s, 1) else (s, 2)
  else if lo = hi then (s, 1)
  else if (lo + 1) % 4294967296 = hi then (s, e)
  else if hi < lo then (s, 2)
  else
    let lo2 := if s.is_nullable e then 0 else lo
    s.mkExpr (.erepeat (fromNullable (lo2 = 0)) e lo2 hi)

/-- `ExprSet::mk_star`. -/
def ExprSet.mk_star (s : ExprSet) (e : Nat) : ExprSet × Nat :=
  s.mk_repeat e 0 4294967295

/-- `ExprSet::mk_plus`. -/
def ExprSet.mk_plus (s : ExprSet) (e : Nat) : ExprSet × Nat :=
  s.mk_repeat e 1 4294967295

/-- `ExprSet::flatten_tag`: splice the children of every argument whose
top-level tag is `t`. -/
def ExprSet.flatten_tag (s : ExprSet) (t : Nat) (args : List Nat) : List Nat :=
  args.flatMap (fun a => if s.get_tag a = some t then s.get_args a else [a])

/-- `args.sort_by_key(|&e| e.0)` (any stable comparison sort; the
elements are plain numbers, so the algorithm is irrelevant). -/
def sortRefs (l : List Nat) : List Nat :=
  l.insertionSort (· ≤ ·)

/-- The absorption / deduplication sweep of `mk_or` (the `for idx`
loop): skip duplicates of the previous kept element and `NoMatch`,
return early on `AnyString`, accumulate nullability. -/
def ExprSet.orAbsorb (s : ExprSet) :
    List Nat → Nat → Bool → Option (List Nat × Bool)
  | [], _, nul => some ([], nul)
  | a :: rest, prev, nul =>
    if a = prev ∨ a = 2 then s.orAbsorb rest prev nul
    else if a = 4 then none
    else
      match s.orAbsorb rest a (nul || s.is_nullable a) with
      | none => none
      | some (l, n) => some (a :: l, n)

/-- `ExprSet::mk_or`. -/
def ExprSet.mk_or (s : ExprSet) (args0 : List Nat) : ExprSet × Nat :=
  match s.orAbsorb (sortRefs (s.flatten_tag 8 args0)) 2 false with
  | none => (s, 4)
  | some (l, nul) =>
    match l with
    | [] => (s, 2)
    | [a] => (s, a)
    | l => s.mkExpr (.eor (fromNullable nul) l)

/-- The absorption sweep of `mk_and`: skip duplicates and `AnyString`,
return early on `NoMatch`, track `had_empty` and conjunctive
nullability. -/
def ExprSet.andAbsorb (s : ExprSet) :
    List Nat → Nat → Bool → Bool → Option (List Nat × Bool × Bool)
  | [], _, he, nul => some ([], he, nul)
  | a :: rest, prev, he, nul =>
    if a = prev ∨ a = 4 then s.andAbsorb rest prev he nul
    else if a = 2 then none
    else
      match s.andAbsorb rest a (he || a == 1) (nul && s.is_nullable a) with
      | none => none
      | some (l, p) => some (a :: l, p)

/-- `ExprSet::mk_and`. -/
def ExprSet.mk_and (s : ExprSet) (args0 : List Nat) : ExprSet × Nat :=
  match s.andAbsorb (sortRefs (s.flatten_tag 9 args0)) 4 false true with
  | none => (s, 2)
  | some (l, he, nul) =>
    match l with
    | [] => (s, 4)
    | [a] => (s, a)
    | l =>
      if he then (if nul then (s, 1) else (s, 2))
      else s.mkExpr (.eand (fromNullable nul) l)

/-- `ExprSet::mk_concat`. -/
def ExprSet.mk_concat (s : ExprSet) (args0 : List Nat) : ExprSet × Nat :=
  match (s.flatten_tag 7 args0).filter (fun e => e ≠ 1) with
  | [] => (s, 1)
  | [a] => (s, a)
  | l =>
    if l.any (fun e => e = 2) then (s, 2)
    else s.mkExpr (.concat (fromNullable (l.all (fun e => s.is_nullable e))) l)

/-- `ExprSet::mk_not`. -/
def ExprSet.mk_not (s : ExprSet) (e : Nat) : ExprSet × Nat :=
  if e = 1 then (s, 5)
  else if e = 5 then (s, 1)
  else if e = 4 then (s, 2)
  else if e = 2 then (s, 4)
  else
    match s.get e with
    | some (.enot _ e2) => (s, e2)
    | n => s.mkExpr (.enot (fromNullable (!nullableOpt n)) e)

/-! ### Basic facts about the record heap -/

lemma findRec_eq_none {ws : List Nat} :
    ∀ {l : List (List Nat)} {i : Nat}, findRec ws l i = none ↔ ws ∉ l := by
  intro l
  induction l with
  | nil => intro i; simp [findRec]
  | cons w rest ih =>
    intro i
    by_cases h : w = ws
    · subst h
      simp [findRec]
    · rw [findRec, if_neg h, ih]
      simp [List.mem_cons, Ne.symm h]

lemma findRec_eq_some_of_get {ws : List Nat} :
    ∀ {l : List (List Nat)} {k i : Nat}, l.Nodup → l.get? k = some ws →
      findRec ws l i = some (i + k) := by
  intro l
  induction l with
  | nil => intro k i _ h; simp at h
  | cons w rest ih =>
    intro k i hn h
    rcases Nat.eq_zero_or_pos k with rfl | hk
    · simp at h
      simp [findRec, h]
    · have hget : rest.get? (k - 1) = some ws := by
        cases k with
        | zero => omega
        | succ k => simpa using h
      have hwne : w ≠ ws := by
        rintro rfl
        exact (List.nodup_cons.mp hn).1 (List.get?_mem hget)
      have := ih (List.nodup_cons.mp hn).2 hget (i := i + 1)
      rw [findRec, if_neg hwne, this]
      congr 1
      omega

lemma findRec_spec_of_eq_some {ws : List Nat} :
    ∀ {l : List (List Nat)} {i j : Nat}, findRec ws l i = some j →
      i ≤ j ∧ l.get? (j - i) = some ws := by
  intro l
  induction l with
  | nil => intro i j h; simp [findRec] at h
  | cons w rest ih =>
    intro i j h
    rw [findRec] at h
    split at h
    · rename_i hw
      cases h
      subst hw
      simp
    · rcases ih h with ⟨h1, h2⟩
      refine ⟨by omega, ?_⟩
      have hj : j - i = (j - (i + 1)) + 1 := by omega
      rw [hj]
      simpa using h2

lemma VecHashMap.get_insert_self (m : VecHashMap) (ws : List Nat) :
    (m.insert ws).1.get (m.insert ws).2 = some ws := by
  unfold VecHashMap.insert
  cases h : findRec ws m.records 0 with
  | some i =>
    have := (findRec_spec_of_eq_some h).2
    simpa [VecHashMap.get] using this
  | none =>
    simp [VecHashMap.get, List.get?_concat_length]

lemma VecHashMap.insert_of_get {m : VecHashMap} {r : Nat} {ws : List Nat}
    (hn : m.records.Nodup) (h : m.get r = some ws) : m.insert ws = (m, r) := by
  unfold VecHashMap.get at h
  split at h
  · exact absurd h (by simp)
  · rename_i hr
    have hf := findRec_eq_some_of_get hn h (i := 0)
    unfold VecHashMap.insert
    rw [hf]
    show (m, 0 + (r - 1) + 1) = (m, r)
    have h2 : 0 + (r - 1) + 1 = r := by omega
    rw [h2]

lemma VecHashMap.get_mem {m : VecHashMap} {r : Nat} {ws : List Nat}
    (h : m.get r = some ws) : ws ∈ m.records := by
  unfold VecHashMap.get at h
  split at h
  · exact absurd h (by simp)
  · exact List.get?_mem h

lemma VecHashMap.insert_records (m : VecHashMap) (ws : List Nat) :
    (m.insert ws).1.records = m.records ∨
      (m.insert ws).1.records = m.records ++ [ws] := by
  unfold VecHashMap.insert
  cases h : findRec ws m.records 0 <;> simp

lemma VecHashMap.insert_nodup {m : VecHashMap} {ws : List Nat}
    (hn : m.records.Nodup) : (m.insert ws).1.records.Nodup := by
  unfold VecHashMap.insert
  cases h : findRec ws m.records 0 with
  | some i => simpa using hn
  | none =>
    have hws : ws ∉ m.records := findRec_eq_none.mp h
    simp [List.nodup_append, hn, hws]

lemma VecHashMap.get_append_mono {m m' : VecHashMap} {tl : List (List Nat)}
    (hrec : m'.records = m.records ++ tl) {r : Nat} {ws : List Nat}
    (h : m.get r = some ws) : m'.get r = some ws := by
  unfold VecHashMap.get at h ⊢
  split at h
  · exact absurd h (by simp)
  · rename_i hr
    rw [if_neg hr, hrec]
    have hlt : r - 1 < m.records.length := (List.get?_eq_some.mp h).1
    rw [List.get?_append hlt]
    exact h

/-! ### Valid references and store extension -/

/-- A reference that designates a stored record: nonzero and within
`len`, exactly the references the smart constructors hand out. -/
def validRef (s : ExprSet) (r : Nat) : Prop := 1 ≤ r ∧ r ≤ s.len

instance (s : ExprSet) (r : Nat) : Decidable (validRef s r) := by
  unfold validRef; infer_instance

lemma validRef_iff_get {s : ExprSet} {r : Nat} :
    validRef s r ↔ ∃ ws, s.exprs.get r = some ws := by
  unfold validRef ExprSet.len VecHashMap.len VecHashMap.get
  constructor
  · rintro ⟨h1, h2⟩
    have hr : ¬(r = 0) := by omega
    have hlt : r - 1 < s.exprs.records.length := by omega
    rcases List.get?_eq_get hlt with h
    exact ⟨_, by rw [if_neg hr, h]⟩
  · rintro ⟨ws, h⟩
    split at h
    · exact absurd h (by simp)
    · rename_i hr
      have := (List.get?_eq_some.mp h).1
      omega

/-- The result store of any constructor call extends its input: the
record list grows by appending only, and the alphabet is unchanged. -/
def ExtendsTo (s s' : ExprSet) : Prop :=
  s'.alphabet_size = s.alphabet_size ∧ s'.alphabet_words = s.alphabet_words ∧
    ∃ tl, s'.exprs.records = s.exprs.records ++ tl

lemma extendsTo_refl (s : ExprSet) : ExtendsTo s s :=
  ⟨rfl, rfl, [], by simp⟩

lemma extendsTo_trans {s1 s2 s3 : ExprSet} (h1 : ExtendsTo s1 s2)
    (h2 : ExtendsTo s2 s3) : ExtendsTo s1 s3 := by
  rcases h1 with ⟨ha, hw, tl1, hr1⟩
  rcases h2 with ⟨ha', hw', tl2, hr2⟩
  exact ⟨ha'.trans ha, hw'.trans hw, tl1 ++ tl2, by rw [hr2, hr1, List.append_assoc]⟩

lemma mkExpr_extendsTo (s : ExprSet) (e : Expr) : ExtendsTo s (s.mkExpr e).1 := by
  unfold ExprSet.mkExpr
  rcases VecHashMap.insert_records s.exprs e.serialize with h | h
  · exact ⟨rfl, rfl, [], by simp [h]⟩
  · exact ⟨rfl, rfl, [e.serialize], h⟩

lemma ExtendsTo.get_raw {s s' : ExprSet} (hE : ExtendsTo s s') {r : Nat}
    {ws : List Nat} (h : s.exprs.get r = some ws) : s'.exprs.get r = some ws := by
  rcases hE with ⟨-, -, tl, hrec⟩
  exact VecHashMap.get_append_mono hrec h

lemma ExtendsTo.len_le {s s' : ExprSet} (hE : ExtendsTo s s') : s.len ≤ s'.len := by
  rcases hE with ⟨-, -, tl, hrec⟩
  unfold ExprSet.len VecHashMap.len
  rw [hrec]
  simp

lemma ExtendsTo.valid_mono {s s' : ExprSet} (hE : ExtendsTo s s') {r : Nat}
    (h : validRef s r) : validRef s' r :=
  ⟨h.1, le_trans h.2 hE.len_le⟩

lemma ExtendsTo.get_tag_eq {s s' : ExprSet} (hE : ExtendsTo s s') {r : Nat}
    (h : validRef s r) : s'.get_tag r = s.get_tag r := by
  rcases validRef_iff_get.mp h with ⟨ws, hg⟩
  unfold ExprSet.get_tag
  rw [hg, hE.get_raw hg]

lemma ExtendsTo.get_args_eq {s s' : ExprSet} (hE : ExtendsTo s s') {r : Nat}
    (h : validRef s r) : s'.get_args r = s.get_args r := by
  rcases validRef_iff_get.mp h with ⟨ws, hg⟩
  unfold ExprSet.get_args
  rw [hg, hE.get_raw hg]

lemma ExtendsTo.is_nullable_eq {s s' : ExprSet} (hE : ExtendsTo s s') {r : Nat}
    (h : validRef s r) : s'.is_nullable r = s.is_nullable r := by
  rcases validRef_iff_get.mp h with ⟨ws, hg⟩
  unfold ExprSet.is_nullable ExprSet.get_flags
  rw [hg, hE.get_raw hg]

lemma ExtendsTo.get_eq {s s' : ExprSet} (hE : ExtendsTo s s') {r : Nat}
    (h : validRef s r) : s'.get r = s.get r := by
  rcases validRef_iff_get.mp h with ⟨ws, hg⟩
  unfold ExprSet.get
  rw [hg, hE.get_raw hg]

/-! ### Encoding arithmetic -/

lemma encodeFT_add {f t : Nat} (hf : f = 0 ∨ f = 256) (h1 : 1 ≤ t) (h9 : t ≤ 9) :
    encodeFT f t = f + t := by
  rcases hf with rfl | rfl
  · simp [encodeFT, Nat.zero_or t]
  · unfold encodeFT
    interval_cases t <;> decide

lemma tagOf_add {f t : Nat} (hf : f = 0 ∨ f = 256) (h9 : t ≤ 9) :
    tagOf (f + t) = t := by
  rcases hf with rfl | rfl
  · simp [tagOf, Nat.mod_eq_of_lt (by omega : t < 256)]
  · unfold tagOf
    rw [show 256 + t = 256 * 1 + t by ring, Nat.mul_add_mod]
    exact Nat.mod_eq_of_lt (by omega)

lemma flagsOf_add {f t : Nat} (hf : f = 0 ∨ f = 256) (h9 : t ≤ 9) :
    flagsOf (f + t) = f := by
  have := tagOf_add hf h9
  unfold tagOf at this
  unfold flagsOf
  omega

lemma fromNullable_or : fromNullable b = 0 ∨ fromNullable b = 256 := by
  cases b <;> simp [fromNullable, nullableFlag]

lemma flagIsNullable_fromNullable (b : Bool) :
    flagIsNullable (fromNullable b) = b := by
  cases b <;> decide

/-! ### Shapes of serialized records -/

lemma serialize_emptyString : Expr.emptyString.serialize = [1] := by decide

lemma serialize_noMatch : Expr.noMatch.serialize = [2] := by decide

lemma serialize_byte (b : Nat) : (Expr.byte b).serialize = [3, b] := by
  simp [Expr.serialize, encodeFT, tagByte, Nat.zero_or]

lemma serialize_byteSet (l : List Nat) : (Expr.byteSet l).serialize = 4 :: l := by
  simp [Expr.serialize, encodeFT, tagByteSet, Nat.zero_or]

lemma serialize_enot (f e : Nat) (hf : f = 0 ∨ f = 256) :
    (Expr.enot f e).serialize = [f + 5, e] := by
  simp [Expr.serialize, tagNot, encodeFT_add (t := 5) hf (by decide) (by decide)]

lemma serialize_erepeat (f e lo hi : Nat) (hf : f = 0 ∨ f = 256) :
    (Expr.erepeat f e lo hi).serialize = [f + 6, e, lo, hi] := by
  simp [Expr.serialize, tagRepeat, encodeFT_add (t := 6) hf (by decide) (by decide)]

lemma serialize_concat (f : Nat) (es : List Nat) (hf : f = 0 ∨ f = 256) :
    (Expr.concat f es).serialize = (f + 7) :: es := by
  simp [Expr.serialize, tagConcat, encodeFT_add (t := 7) hf (by decide) (by decide)]

lemma serialize_eor (f : Nat) (es : List Nat) (hf : f = 0 ∨ f = 256) :
    (Expr.eor f es).serialize = (f + 8) :: es := by
  simp [Expr.serialize, tagOr, encodeFT_add (t := 8) hf (by decide) (by decide)]

lemma serialize_eand (f : Nat) (es : List Nat) (hf : f = 0 ∨ f = 256) :
    (Expr.eand f es).serialize = (f + 9) :: es := by
  simp [Expr.serialize, tagAnd, encodeFT_add (t := 9) hf (by decide) (by decide)]

/-! ### The store invariant -/

/-- Canonical child list of a stored `Or` / `And` record: at least two
children, strictly sorted (hence deduplicated), all valid, none equal to
the absorbing/identity elements `NoMatch` (2) and `AnyString` (4), and
none carrying the same top-level tag (flattened). -/
def canonArgs (s : ExprSet) (t : Nat) (es : List Nat) : Prop :=
  2 ≤ es.length ∧ List.Sorted (· < ·) es ∧
    ∀ e ∈ es, validRef s e ∧ e ≠ 2 ∧ e ≠ 4 ∧ s.get_tag e ≠ some t

/-- Structural well-formedness of one stored record, relative to the
store it lives in.  The first word is `flags + tag` with flags either
`0` or `NULLABLE`; leaves carry no flags; `Repeat` records have three
payload words; `Or`/`And` records have canonical child lists; `Not`
records have a non-trivial, non-`Not` child and a flag that is the
negation of the child's stored flag. -/
def goodRec (s : ExprSet) (ws : List Nat) : Prop :=
  ∃ f t rest, ws = (f + t) :: rest ∧ (f = 0 ∨ f = 256) ∧ 1 ≤ t ∧ t ≤ 9 ∧
    (t ≤ 4 → f = 0) ∧ (t = 3 → rest.length = 1) ∧
    (t = 6 → rest.length = 3) ∧
    (t = 8 → canonArgs s 8 rest) ∧
    (t = 9 → canonArgs s 9 rest) ∧
    (t = 5 → ∃ e, rest = [e] ∧ validRef s e ∧ e ≠ 1 ∧ e ≠ 2 ∧ e ≠ 4 ∧ e ≠ 5 ∧
      s.get_tag e ≠ some 5 ∧ f = fromNullable (!s.is_nullable e))

/-- The invariant maintained by `ExprSet::new` and every smart
constructor. -/
structure Inv (s : ExprSet) : Prop where
  nodup : s.exprs.records.Nodup
  aw_pos : 1 ≤ s.alphabet_words
  base1 : s.exprs.get 1 = some [1]
  base2 : s.exprs.get 2 = some [2]
  base3 : s.exprs.get 3 = some (4 :: List.replicate s.alphabet_words 4294967295)
  base4 : s.exprs.get 4 = some [262, 3, 0, 4294967295]
  base5 : s.exprs.get 5 = some [6, 3, 1, 4294967295]
  five_le : 5 ≤ s.len
  rec_ok : ∀ ws ∈ s.exprs.records, goodRec s ws

lemma canonArgs_mono {s s' : ExprSet} (hE : ExtendsTo s s') {t : Nat}
    {es : List Nat} (h : canonArgs s t es) : canonArgs s' t es := by
  refine ⟨h.1, h.2.1, fun e he => ?_⟩
  rcases h.2.2 e he with ⟨hv, h2, h4, ht⟩
  exact ⟨hE.valid_mono hv, h2, h4, by rw [hE.get_tag_eq hv]; exact ht⟩

lemma goodRec_mono {s s' : ExprSet} (hE : ExtendsTo s s') {ws : List Nat}
    (h : goodRec s ws) : goodRec s' ws := by
  rcases h with ⟨f, t, rest, hws, hf, h1, h9, hleaf, h3, h6, h8, h9', h5⟩
  refine ⟨f, t, rest, hws, hf, h1, h9, hleaf, h3, h6,
    fun ht => canonArgs_mono hE (h8 ht), fun ht => canonArgs_mono hE (h9' ht), ?_⟩
  intro ht
  rcases h5 ht with ⟨e, hrest, hv, he1, he2, he4, he5, htag, hflag⟩
  refine ⟨e, hrest, hE.valid_mono hv, he1, he2, he4, he5, ?_, ?_⟩
  · rw [hE.get_tag_eq hv]; exact htag
  · rw [hE.is_nullable_eq hv]; exact hflag

/-! ### Sorting -/

lemma sortRefs_sorted (l : List Nat) : List.Sorted (· ≤ ·) (sortRefs l) :=
  List.sorted_insertionSort _ l

lemma sortRefs_perm (l : List Nat) : List.Perm (sortRefs l) l :=
  List.perm_insertionSort _ l

lemma sortRefs_mem {l : List Nat} {x : Nat} : x ∈ sortRefs l ↔ x ∈ l :=
  (sortRefs_perm l).mem_iff

lemma sortRefs_eq_of_perm {l l' : List Nat} (h : List.Perm l l') :
    sortRefs l = sortRefs l' :=
  List.eq_of_perm_of_sorted ((sortRefs_perm l).trans (h.trans (sortRefs_perm l').symm))
    (sortRefs_sorted l) (sortRefs_sorted l')

/-- Two strictly sorted lists with the same members are equal. -/
lemma sorted_lt_eq : ∀ {l l' : List Nat}, List.Sorted (· < ·) l →
    List.Sorted (· < ·) l' → (∀ x, x ∈ l ↔ x ∈ l') → l = l' := by
  intro l
  induction l with
  | nil =>
    intro l' _ _ h
    cases l' with
    | nil => rfl
    | cons b t => exact absurd ((h b).mpr (by simp)) (by simp)
  | cons a t ih =>
    intro l' hs hs' h
    cases l' with
    | nil => exact absurd ((h a).mp (by simp)) (by simp)
    | cons b t' =>
      have hab : a = b := by
        have ha' : a ∈ b :: t' := (h a).mp (by simp)
        have hb' : b ∈ a :: t := (h b).mpr (by simp)
        rcases List.mem_cons.mp ha' with h1 | h1
        · exact h1
        · rcases List.mem_cons.mp hb' with h2 | h2
          · exact h2.symm
          · have hba : b < a := (List.sorted_cons.mp hs').1 a h1
            have hab2 : a < b := (List.sorted_cons.mp hs).1 b h2
            omega
      subst hab
      congr 1
      apply ih (List.sorted_cons.mp hs).2 (List.sorted_cons.mp hs').2
      intro x
      constructor
      · intro hx
        have hax : a < x := (List.sorted_cons.mp hs).1 x hx
        have hmem : x ∈ a :: t' := (h x).mp (List.mem_cons_of_mem a hx)
        rcases List.mem_cons.mp hmem with h1 | h1
        · omega
        · exact h1
      · intro hx
        have hax : a < x := (List.sorted_cons.mp hs').1 x hx
        have hmem : x ∈ a :: t := (h x).mpr (List.mem_cons_of_mem a hx)
        rcases List.mem_cons.mp hmem with h1 | h1
        · omega
        · exact h1

/-! ### The absorption sweeps, characterized -/

lemma orAbsorb_spec (s : ExprSet) :
    ∀ (l : List Nat) (prev : Nat) (nul : Bool),
      List.Sorted (· ≤ ·) l → (prev = 2 ∨ ∀ x ∈ l, prev ≤ x) → prev ≠ 4 →
      (if 4 ∈ l then s.orAbsorb l prev nul = none
       else ∃ R, s.orAbsorb l prev nul = some (R, nul || R.any s.is_nullable) ∧
         List.Sorted (· < ·) R ∧ (∀ x, x ∈ R ↔ x ∈ l ∧ x ≠ 2 ∧ x ≠ prev)) := by
  intro l
  induction l with
  | nil =>
    intro prev nul _ _ _
    rw [if_neg (by simp)]
    exact ⟨[], by simp [ExprSet.orAbsorb], by simp, by simp⟩
  | cons a rest ih =>
    intro prev nul hs hP hp4
    have hs' := (List.sorted_cons.mp hs).2
    have hrestlb := (List.sorted_cons.mp hs).1
    by_cases hskip : a = prev ∨ a = 2
    · have ha4 : a ≠ 4 := by
        rcases hskip with rfl | rfl
        · exact hp4
        · decide
      have hP' : prev = 2 ∨ ∀ x ∈ rest, prev ≤ x := by
        rcases hP with h2 | hall
        · exact Or.inl h2
        · exact Or.inr fun x hx => le_trans (hall a (by simp)) (hrestlb x hx)
      have hrec := ih prev nul hs' hP' hp4
      have hunf : s.orAbsorb (a :: rest) prev nul = s.orAbsorb rest prev nul := by
        rw [ExprSet.orAbsorb, if_pos hskip]
      by_cases h4 : 4 ∈ rest
      · rw [if_pos (by simp [h4]), hunf]
        rw [if_pos h4] at hrec
        exact hrec
      · have h4' : 4 ∉ a :: rest := by
          simp [List.mem_cons, h4]
          exact fun h => ha4 h.symm
        rw [if_neg h4', hunf]
        rw [if_neg h4] at hrec
        rcases hrec with ⟨R, heq, hsort, hmem⟩
        refine ⟨R, heq, hsort, fun x => ?_⟩
        rw [hmem x]
        constructor
        · rintro ⟨hx, h2, hp⟩
          exact ⟨List.mem_cons_of_mem a hx, h2, hp⟩
        · rintro ⟨hx, h2, hp⟩
          rcases List.mem_cons.mp hx with rfl | hx'
          · rcases hskip with rfl | rfl
            · exact absurd rfl hp
            · exact absurd rfl h2
          · exact ⟨hx', h2, hp⟩
    · push_neg at hskip
      have hunf : s.orAbsorb (a :: rest) prev nul =
          if a = 4 then none
          else match s.orAbsorb rest a (nul || s.is_nullable a) with
            | none => none
            | some (l, n) => some (a :: l, n) := by
        rw [ExprSet.orAbsorb, if_neg (by tauto)]
      by_cases ha4 : a = 4
      · subst ha4
        rw [if_pos (by simp), hunf, if_pos rfl]
      · have hrec := ih a (nul || s.is_nullable a) hs' (Or.inr hrestlb) ha4
        by_cases h4 : 4 ∈ rest
        · rw [if_pos (by simp [h4]), hunf, if_neg ha4]
          rw [if_pos h4] at hrec
          rw [hrec]
        · have h4' : 4 ∉ a :: rest := by
            simp [List.mem_cons, h4]
            exact fun h => ha4 h.symm
          rw [if_neg h4', hunf, if_neg ha4]
          rw [if_neg h4] at hrec
          rcases hrec with ⟨R, heq, hsort, hmem⟩
          refine ⟨a :: R, ?_, ?_, ?_⟩
          · rw [heq]
            simp [List.any_cons, Bool.or_assoc]
          · rw [List.sorted_cons]
            refine ⟨fun x hx => ?_, hsort⟩
            rcases (hmem x).mp hx with ⟨hxr, -, hxa⟩
            exact lt_of_le_of_ne (hrestlb x hxr) (Ne.symm hxa)
          · intro x
            constructor
            · intro hx
              rcases List.mem_cons.mp hx with rfl | hx'
              · exact ⟨by simp, hskip.2, hskip.1⟩
              · rcases (hmem x).mp hx' with ⟨hxr, h2, hxa⟩
                refine ⟨List.mem_cons_of_mem a hxr, h2, fun hxp => ?_⟩
                subst hxp
                rcases hP with rfl | hall
                · exact h2 rfl
                · exact hskip.1 (le_antisymm (hall a (by simp)) (hrestlb _ hxr)).symm
            · rintro ⟨hx, h2, hp⟩
              rcases List.mem_cons.mp hx with rfl | hx'
              · exact List.mem_cons_self _ _
              · by_cases hxa : x = a
                · subst hxa
                  exact List.mem_cons_self _ _
                · exact List.mem_cons_of_mem a ((hmem x).mpr ⟨hx', h2, hxa⟩)

lemma andAbsorb_spec (s : ExprSet) :
    ∀ (l : List Nat) (prev : Nat) (he nul : Bool),
      List.Sorted (· ≤ ·) l → (prev = 4 ∨ ∀ x ∈ l, prev ≤ x) → prev ≠ 2 →
      (if 2 ∈ l then s.andAbsorb l prev he nul = none
       else ∃ R, s.andAbsorb l prev he nul =
           some (R, he || R.any (fun x => x == 1), nul && R.all s.is_nullable) ∧
         List.Sorted (· < ·) R ∧ (∀ x, x ∈ R ↔ x ∈ l ∧ x ≠ 4 ∧ x ≠ prev)) := by
  intro l
  induction l with
  | nil =>
    intro prev he nul _ _ _
    rw [if_neg (by simp)]
    exact ⟨[], by simp [ExprSet.andAbsorb], by simp, by simp⟩
  | cons a rest ih =>
    intro prev he nul hs hP hp2
    have hs' := (List.sorted_cons.mp hs).2
    have hrestlb := (List.sorted_cons.mp hs).1
    by_cases hskip : a = prev ∨ a = 4
    · have ha2 : a ≠ 2 := by
        rcases hskip with rfl | rfl
        · exact hp2
        · decide
      have hP' : prev = 4 ∨ ∀ x ∈ rest, prev ≤ x := by
        rcases hP with h4 | hall
        · exact Or.inl h4
        · exact Or.inr fun x hx => le_trans (hall a (by simp)) (hrestlb x hx)
      have hrec := ih prev he nul hs' hP' hp2
      have hunf : s.andAbsorb (a :: rest) prev he nul =
          s.andAbsorb rest prev he nul := by
        rw [ExprSet.andAbsorb, if_pos hskip]
      by_cases h2 : 2 ∈ rest
      · rw [if_pos (by simp [h2]), hunf]
        rw [if_pos h2] at hrec
        exact hrec
      · have h2' : 2 ∉ a :: rest := by
          simp [List.mem_cons, h2]
          exact fun h => ha2 h.symm
        rw [if_neg h2', hunf]
        rw [if_neg h2] at hrec
        rcases hrec with ⟨R, heq, hsort, hmem⟩
        refine ⟨R, heq, hsort, fun x => ?_⟩
        rw [hmem x]
        constructor
        · rintro ⟨hx, h4, hp⟩
          exact ⟨List.mem_cons_of_mem a hx, h4, hp⟩
        · rintro ⟨hx, h4, hp⟩
          rcases List.mem_cons.mp hx with rfl | hx'
          · rcases hskip with rfl | rfl
            · exact absurd rfl hp
            · exact absurd rfl h4
          · exact ⟨hx', h4, hp⟩
    · push_neg at hskip
      have hunf : s.andAbsorb (a :: rest) prev he nul =
          if a = 2 then none
          else match s.andAbsorb rest a (he || a == 1) (nul && s.is_nullable a) with
            | none => none
            | some (l, p) => some (a :: l, p) := by
        rw [ExprSet.andAbsorb, if_neg (by tauto)]
      by_cases ha2 : a = 2
      · subst ha2
        rw [if_pos (by simp), hunf, if_pos rfl]
      · have hrec := ih a (he || a == 1) (nul && s.is_nullable a) hs'
          (Or.inr hrestlb) ha2
        by_cases h2 : 2 ∈ rest
        · rw [if_pos (by simp [h2]), hunf, if_neg ha2]
          rw [if_pos h2] at hrec
          rw [hrec]
        · have h2' : 2 ∉ a :: rest := by
            simp [List.mem_cons, h2]
            exact fun h => ha2 h.symm
          rw [if_neg h2', hunf, if_neg ha2]
          rw [if_neg h2] at hrec
          rcases hrec with ⟨R, heq, hsort, hmem⟩
          refine ⟨a :: R, ?_, ?_, ?_⟩
          · rw [heq]
            simp [List.any_cons, List.all_cons, Bool.or_assoc, Bool.and_assoc]
          · rw [List.sorted_cons]
            refine ⟨fun x hx => ?_, hsort⟩
            rcases (hmem x).mp hx with ⟨hxr, -, hxa⟩
            exact lt_of_le_of_ne (hrestlb x hxr) (Ne.symm hxa)
          · intro x
            constructor
            · intro hx
              rcases List.mem_cons.mp hx with rfl | hx'
              · exact ⟨by simp, hskip.2, hskip.1⟩
              · rcases (hmem x).mp hx' with ⟨hxr, h4, hxa⟩
                refine ⟨List.mem_cons_of_mem a hxr, h4, fun hxp => ?_⟩
                subst hxp
                rcases hP with rfl | hall
                · exact h4 rfl
                · exact hskip.1 (le_antisymm (hall a (by simp)) (hrestlb _ hxr)).symm
            · rintro ⟨hx, h4, hp⟩
              rcases List.mem_cons.mp hx with rfl | hx'
              · exact List.mem_cons_self _ _
              · by_cases hxa : x = a
                · subst hxa
                  exact List.mem_cons_self _ _
                · exact List.mem_cons_of_mem a ((hmem x).mpr ⟨hx', h4, hxa⟩)

/-! ### Reading stored records under the invariant -/

lemma flatten_tag_mem {s : ExprSet} {t : Nat} {args : List Nat} {x : Nat} :
    x ∈ s.flatten_tag t args ↔
      ∃ a ∈ args, (s.get_tag a ≠ some t ∧ x = a) ∨
        (s.get_tag a = some t ∧ x ∈ s.get_args a) := by
  unfold ExprSet.flatten_tag
  rw [List.mem_flatMap]
  constructor
  · rintro ⟨a, ha, hx⟩
    by_cases hc : s.get_tag a = some t
    · exact ⟨a, ha, Or.inr ⟨hc, by simpa [hc] using hx⟩⟩
    · exact ⟨a, ha, Or.inl ⟨hc, by simpa [hc] using hx⟩⟩
  · rintro ⟨a, ha, h⟩
    rcases h with ⟨hc, hxa⟩ | ⟨hc, hx⟩
    · subst hxa
      exact ⟨x, ha, by simp [hc]⟩
    · exact ⟨a, ha, by simp [hc, hx]⟩

lemma flatten_tag_append (s : ExprSet) (t : Nat) (l1 l2 : List Nat) :
    s.flatten_tag t (l1 ++ l2) = s.flatten_tag t l1 ++ s.flatten_tag t l2 := by
  unfold ExprSet.flatten_tag
  exact List.flatMap_append ..

/-- Decompose a stored record in an invariant-carrying store: its first
word splits into flags and tag, and the reader functions compute
accordingly. -/
lemma record_shape {s : ExprSet} (hInv : Inv s) {r : Nat} {ws : List Nat}
    (h : s.exprs.get r = some ws) :
    ∃ f t rest, ws = (f + t) :: rest ∧ (f = 0 ∨ f = 256) ∧ 1 ≤ t ∧ t ≤ 9 ∧
      s.get_tag r = some t ∧
      s.get_args r = (if t = 7 ∨ t = 8 ∨ t = 9 then rest
        else if t = 5 ∨ t = 6 then rest.take 1 else []) ∧
      s.is_nullable r = flagIsNullable f ∧
      (t ≤ 4 → f = 0) ∧ (t = 3 → rest.length = 1) ∧ (t = 6 → rest.length = 3) ∧
      (t = 8 → canonArgs s 8 rest) ∧ (t = 9 → canonArgs s 9 rest) ∧
      (t = 5 → ∃ e, rest = [e] ∧ validRef s e ∧ e ≠ 1 ∧ e ≠ 2 ∧ e ≠ 4 ∧ e ≠ 5 ∧
        s.get_tag e ≠ some 5 ∧ f = fromNullable (!s.is_nullable e)) := by
  obtain ⟨f, t, rest, hws, hf, h1, h9, hleaf, h3, h6, h8, h9', h5⟩ :=
    hInv.rec_ok ws (VecHashMap.get_mem h)
  refine ⟨f, t, rest, hws, hf, h1, h9, ?_, ?_, ?_, hleaf, h3, h6, h8, h9', h5⟩
  · unfold ExprSet.get_tag
    rw [h, hws]
    simp [tagOf_add hf h9]
  · unfold ExprSet.get_args
    rw [h, hws]
    simp [tagOf_add hf h9]
  · unfold ExprSet.is_nullable ExprSet.get_flags
    rw [h, hws]
    simp [flagsOf_add hf h9]

/-- Every element produced by flattening a list of valid references for
tag `Or`/`And` is itself valid and does not carry that tag. -/
lemma flatten_tag_elem {s : ExprSet} (hInv : Inv s) {t : Nat} (ht : t = 8 ∨ t = 9)
    {args : List Nat} (hargs : ∀ a ∈ args, validRef s a) {x : Nat}
    (hx : x ∈ s.flatten_tag t args) : validRef s x ∧ s.get_tag x ≠ some t := by
  rcases flatten_tag_mem.mp hx with ⟨a, ha, ⟨hne, hxa⟩ | ⟨heq, hxargs⟩⟩
  · subst hxa
    exact ⟨hargs _ ha, hne⟩
  · rcases validRef_iff_get.mp (hargs a ha) with ⟨ws, hw⟩
    rcases record_shape hInv hw with
      ⟨f, t', rest, hws, hf, h1, h9, htag, hga, hnul, hleaf, h3, h6, h8, h9', h5⟩
    have ht2 : t' = t := by
      rw [htag] at heq
      exact Option.some.inj heq
    rw [ht2] at hga h8 h9'
    have hrest : s.get_args a = rest := by
      rw [hga]
      rcases ht with rfl | rfl <;> simp
    rw [hrest] at hxargs
    have hcanon : canonArgs s t rest := by
      rcases ht with rfl | rfl
      · exact h8 rfl
      · exact h9' rfl
    rcases hcanon.2.2 x hxargs with ⟨hv, -, -, htagx⟩
    exact ⟨hv, htagx⟩

/-! ### Facts about `mkExpr` -/

lemma mkExpr_get_self (s : ExprSet) (e : Expr) :
    (s.mkExpr e).1.exprs.get (s.mkExpr e).2 = some e.serialize :=
  VecHashMap.get_insert_self s.exprs e.serialize

lemma mkExpr_valid (s : ExprSet) (e : Expr) :
    validRef (s.mkExpr e).1 (s.mkExpr e).2 :=
  validRef_iff_get.mpr ⟨_, mkExpr_get_self s e⟩

lemma mkExpr_of_get {s : ExprSet} (hn : s.exprs.records.Nodup) {r : Nat} {e : Expr}
    (h : s.exprs.get r = some e.serialize) : s.mkExpr e = (s, r) := by
  unfold ExprSet.mkExpr
  rw [VecHashMap.insert_of_get hn h]

lemma inv_mkExpr {s : ExprSet} (hInv : Inv s) {e : Expr}
    (hg : goodRec s e.serialize) : Inv (s.mkExpr e).1 := by
  have hE := mkExpr_extendsTo s e
  have haw : (s.mkExpr e).1.alphabet_words = s.alphabet_words := hE.2.1
  refine ⟨VecHashMap.insert_nodup hInv.nodup, by rw [haw]; exact hInv.aw_pos,
    hE.get_raw hInv.base1, hE.get_raw hInv.base2, ?_,
    hE.get_raw hInv.base4, hE.get_raw hInv.base5,
    le_trans hInv.five_le hE.len_le, ?_⟩
  · rw [haw]
    exact hE.get_raw hInv.base3
  · intro ws hws
    unfold ExprSet.mkExpr at hws
    rcases VecHashMap.insert_records s.exprs e.serialize with hr | hr
    · rw [hr] at hws
      exact goodRec_mono hE (hInv.rec_ok ws hws)
    · rw [hr] at hws
      rcases List.mem_append.mp hws with hold | hnew
      · exact goodRec_mono hE (hInv.rec_ok ws hold)
      · rw [List.mem_singleton.mp hnew]
        exact goodRec_mono hE hg

/-- Decoding a valid record agrees with its stored NULLABLE bit.  This
is the coherence `n.nullable() = is_nullable(e)` used by `mk_not`. -/
lemma nullable_coherent {s : ExprSet} (hInv : Inv s) {e : Nat}
    (he : validRef s e) : nullableOpt (s.get e) = s.is_nullable e := by
  rcases validRef_iff_get.mp he with ⟨ws, hw⟩
  rcases record_shape hInv hw with
    ⟨f, t, rest, hws, hf, h1, h9, htag, hga, hnul, hleaf, h3, h6, h8, h9', h5⟩
  have hget : s.get e = Expr.from_slice ws := by
    unfold ExprSet.get
    rw [hw]
    rfl
  rw [hget, hws, hnul]
  interval_cases t
  · have hf0 : f = 0 := hleaf (by omega)
    subst hf0
    simp [Expr.from_slice, tagOf, nullableOpt, Expr.nullable, flagIsNullable,
      nullableFlag]
  · have hf0 : f = 0 := hleaf (by omega)
    subst hf0
    simp [Expr.from_slice, tagOf, nullableOpt, Expr.nullable, flagIsNullable,
      nullableFlag]
  · have hf0 : f = 0 := hleaf (by omega)
    subst hf0
    cases rest <;>
      simp [Expr.from_slice, tagOf, nullableOpt, Expr.nullable, flagIsNullable,
        nullableFlag]
  · have hf0 : f = 0 := hleaf (by omega)
    subst hf0
    simp [Expr.from_slice, tagOf, nullableOpt, Expr.nullable, flagIsNullable,
      nullableFlag]
  · rcases h5 rfl with ⟨e', hrest, -⟩
    subst hrest
    rcases hf with rfl | rfl <;>
      simp [Expr.from_slice, tagOf, flagsOf, nullableOpt, Expr.nullable]
  · have hlen := h6 rfl
    match rest, hlen with
    | [x, y, z], _ =>
      rcases hf with rfl | rfl <;>
        simp [Expr.from_slice, tagOf, flagsOf, nullableOpt, Expr.nullable]
  · rcases hf with rfl | rfl <;>
      simp [Expr.from_slice, tagOf, flagsOf, nullableOpt, Expr.nullable]
  · rcases hf with rfl | rfl <;>
      simp [Expr.from_slice, tagOf, flagsOf, nullableOpt, Expr.nullable]
  · rcases hf with rfl | rfl <;>
      simp [Expr.from_slice, tagOf, flagsOf, nullableOpt, Expr.nullable]

/-! ### Evaluation of `mk_or` and `mk_and` -/

/-- Full evaluation of `mk_or`: a strictly sorted survivor list `R`,
determined by membership in the flattened argument list, decides the
result together with the presence of `AnyString` (4). -/
lemma mk_or_eval (s : ExprSet) (args : List Nat) :
    (4 ∈ s.flatten_tag 8 args → s.mk_or args = (s, 4)) ∧
    (4 ∉ s.flatten_tag 8 args → ∃ R : List Nat, List.Sorted (· < ·) R ∧
      (∀ x, x ∈ R ↔ x ∈ s.flatten_tag 8 args ∧ x ≠ 2) ∧
      (R = [] → s.mk_or args = (s, 2)) ∧
      (∀ y, R = [y] → s.mk_or args = (s, y)) ∧
      (2 ≤ R.length →
        s.mk_or args = s.mkExpr (.eor (fromNullable (R.any s.is_nullable)) R))) := by
  have hspec := orAbsorb_spec s (sortRefs (s.flatten_tag 8 args)) 2 false
    (sortRefs_sorted _) (Or.inl rfl) (by decide)
  constructor
  · intro h4
    have h4' : 4 ∈ sortRefs (s.flatten_tag 8 args) := sortRefs_mem.mpr h4
    rw [if_pos h4'] at hspec
    simp [ExprSet.mk_or, hspec]
  · intro h4
    have h4' : 4 ∉ sortRefs (s.flatten_tag 8 args) := fun h => h4 (sortRefs_mem.mp h)
    rw [if_neg h4'] at hspec
    rcases hspec with ⟨R, heq, hsort, hmem⟩
    refine ⟨R, hsort, ?_, ?_, ?_, ?_⟩
    · intro x
      rw [hmem x, sortRefs_mem]
      constructor
      · rintro ⟨hx1, hx2, -⟩
        exact ⟨hx1, hx2⟩
      · rintro ⟨hx1, hx2⟩
        exact ⟨hx1, hx2, hx2⟩
    · intro hR
      subst hR
      simp [ExprSet.mk_or, heq]
    · intro y hR
      subst hR
      simp [ExprSet.mk_or, heq]
    · intro hR
      simp only [ExprSet.mk_or, heq]
      rcases R with - | ⟨a, - | ⟨b, rest⟩⟩
      · simp at hR
      · simp at hR
      · show s.mkExpr _ = s.mkExpr _
        rw [Bool.false_or]

/-- Full evaluation of `mk_and`, mirror of `mk_or_eval` with the extra
`had_empty` branch. -/
lemma mk_and_eval (s : ExprSet) (args : List Nat) :
    (2 ∈ s.flatten_tag 9 args → s.mk_and args = (s, 2)) ∧
    (2 ∉ s.flatten_tag 9 args → ∃ R : List Nat, List.Sorted (· < ·) R ∧
      (∀ x, x ∈ R ↔ x ∈ s.flatten_tag 9 args ∧ x ≠ 4) ∧
      (R = [] → s.mk_and args = (s, 4)) ∧
      (∀ y, R = [y] → s.mk_and args = (s, y)) ∧
      (2 ≤ R.length → 1 ∈ R →
        s.mk_and args = (if R.all s.is_nullable then (s, 1) else (s, 2))) ∧
      (2 ≤ R.length → 1 ∉ R →
        s.mk_and args = s.mkExpr (.eand (fromNullable (R.all s.is_nullable)) R))) := by
  have hspec := andAbsorb_spec s (sortRefs (s.flatten_tag 9 args)) 4 false true
    (sortRefs_sorted _) (Or.inl rfl) (by decide)
  constructor
  · intro h2
    have h2' : 2 ∈ sortRefs (s.flatten_tag 9 args) := sortRefs_mem.mpr h2
    rw [if_pos h2'] at hspec
    simp [ExprSet.mk_and, hspec]
  · intro h2
    have h2' : 2 ∉ sortRefs (s.flatten_tag 9 args) := fun h => h2 (sortRefs_mem.mp h)
    rw [if_neg h2'] at hspec
    rcases hspec with ⟨R, heq, hsort, hmem⟩
    refine ⟨R, hsort, ?_, ?_, ?_, ?_, ?_⟩
    · intro x
      rw [hmem x, sortRefs_mem]
      constructor
      · rintro ⟨hx1, hx2, -⟩
        exact ⟨hx1, hx2⟩
      · rintro ⟨hx1, hx2⟩
        exact ⟨hx1, hx2, hx2⟩
    · intro hR
      subst hR
      simp [ExprSet.mk_and, heq]
    · intro y hR
      subst hR
      simp [ExprSet.mk_and, heq]
    · intro hR h1R
      have hany : (R.any (fun x => x == 1)) = true :=
        List.any_eq_true.mpr ⟨1, h1R, by simp⟩
      simp only [ExprSet.mk_and, heq]
      rcases R with - | ⟨a, - | ⟨b, rest⟩⟩
      · simp at hR
      · simp at hR
      · show (if (false || (a :: b :: rest).any (fun x => x == 1)) = true then _ else _) = _
        rw [Bool.false_or, hany, if_pos rfl, Bool.true_and]
    · intro hR h1R
      have hany : (R.any (fun x => x == 1)) = false := by
        rw [List.any_eq_false]
        intro x hx
        simp only [beq_iff_eq]
        rintro rfl
        exact h1R hx
      simp only [ExprSet.mk_and, heq]
      rcases R with - | ⟨a, - | ⟨b, rest⟩⟩
      · simp at hR
      · simp at hR
      · show (if (false || (a :: b :: rest).any (fun x => x == 1)) = true then _ else _) = _
        rw [Bool.false_or, hany, Bool.true_and]
        show s.mkExpr _ = s.mkExpr _
        rfl

/-! ### Store extension by each constructor -/

lemma mk_byte_extendsTo (s : ExprSet) (b : Nat) : ExtendsTo s (s.mk_byte b).1 :=
  mkExpr_extendsTo s _

lemma mk_byte_set_extendsTo (s : ExprSet) (bits : List Nat) :
    ExtendsTo s (s.mk_byte_set bits).1 := by
  unfold ExprSet.mk_byte_set
  split
  · exact extendsTo_refl s
  · exact mkExpr_extendsTo s _

lemma mk_repeat_extendsTo (s : ExprSet) (e lo hi : Nat) :
    ExtendsTo s (s.mk_repeat e lo hi).1 := by
  unfold ExprSet.mk_repeat
  split
  · split <;> exact extendsTo_refl s
  · split
    · exact extendsTo_refl s
    · split
      · exact extendsTo_refl s
      · split
        · exact extendsTo_refl s
        · exact mkExpr_extendsTo s _

lemma mk_not_extendsTo (s : ExprSet) (e : Nat) : ExtendsTo s (s.mk_not e).1 := by
  unfold ExprSet.mk_not
  split
  · exact extendsTo_refl s
  · split
    · exact extendsTo_refl s
    · split
      · exact extendsTo_refl s
      · split
        · exact extendsTo_refl s
        · split
          · exact extendsTo_refl s
          · exact mkExpr_extendsTo s _

lemma mk_or_extendsTo (s : ExprSet) (args : List Nat) :
    ExtendsTo s (s.mk_or args).1 := by
  rcases mk_or_eval s args with ⟨h4, hno⟩
  by_cases hm : 4 ∈ s.flatten_tag 8 args
  · rw [h4 hm]
    exact extendsTo_refl s
  · rcases hno hm with ⟨R, hsort, hmem, hnil, hone, hmore⟩
    rcases R with - | ⟨a, - | ⟨b, rest⟩⟩
    · rw [hnil rfl]
      exact extendsTo_refl s
    · rw [hone a rfl]
      exact extendsTo_refl s
    · rw [hmore (by simp)]
      exact mkExpr_extendsTo s _

lemma mk_and_extendsTo (s : ExprSet) (args : List Nat) :
    ExtendsTo s (s.mk_and args).1 := by
  rcases mk_and_eval s args with ⟨h2, hno⟩
  by_cases hm : 2 ∈ s.flatten_tag 9 args
  · rw [h2 hm]
    exact extendsTo_refl s
  · rcases hno hm with ⟨R, hsort, hmem, hnil, hone, hemp, hmore⟩
    rcases R with - | ⟨a, - | ⟨b, rest⟩⟩
    · rw [hnil rfl]
      exact extendsTo_refl s
    · rw [hone a rfl]
      exact extendsTo_refl s
    · by_cases h1R : 1 ∈ a :: b :: rest
      · rw [hemp (by simp) h1R]
        split <;> exact extendsTo_refl s
      · rw [hmore (by simp) h1R]
        exact mkExpr_extendsTo s _

lemma mk_concat_extendsTo (s : ExprSet) (args : List Nat) :
    ExtendsTo s (s.mk_concat args).1 := by
  unfold ExprSet.mk_concat
  split
  · exact extendsTo_refl s
  · exact extendsTo_refl s
  · split
    · exact extendsTo_refl s
    · exact mkExpr_extendsTo s _

lemma mk_star_extendsTo (s : ExprSet) (e : Nat) : ExtendsTo s (s.mk_star e).1 :=
  mk_repeat_extendsTo s e 0 4294967295

lemma mk_plus_extendsTo (s : ExprSet) (e : Nat) : ExtendsTo s (s.mk_plus e).1 :=
  mk_repeat_extendsTo s e 1 4294967295

/-! ### Decoding under the invariant -/

/-- Decoding a valid reference: the view's nullability agrees with the
stored bit, and the view is a `Not` exactly when the tag is `Not`, in
which case the record shape of `mk_not` is recovered. -/
lemma get_decode {s : ExprSet} (hInv : Inv s) {e : Nat} (he : validRef s e) :
    ∃ X, s.get e = some X ∧ X.nullable = s.is_nullable e ∧
      (∀ f e2, X = .enot f e2 → s.get_tag e = some 5) ∧
      (s.get_tag e = some 5 → ∃ e2, X = .enot (fromNullable (!s.is_nullable e2)) e2 ∧
        validRef s e2 ∧ e2 ≠ 1 ∧ e2 ≠ 2 ∧ e2 ≠ 4 ∧ e2 ≠ 5 ∧
        s.get_tag e2 ≠ some 5) := by
  rcases validRef_iff_get.mp he with ⟨ws, hw⟩
  rcases record_shape hInv hw with
    ⟨f, t, rest, hws, hf, h1, h9, htag, hga, hnul, hleaf, h3, h6, h8, h9', h5⟩
  have hget : s.get e = Expr.from_slice ws := by
    unfold ExprSet.get
    rw [hw]
    rfl
  rw [hget, hws, hnul, htag]
  interval_cases t
  · have hf0 : f = 0 := hleaf (by omega)
    subst hf0
    exact ⟨.emptyString, by simp [Expr.from_slice, tagOf],
      by simp [Expr.nullable, flagIsNullable, nullableFlag], by simp, by simp⟩
  · have hf0 : f = 0 := hleaf (by omega)
    subst hf0
    exact ⟨.noMatch, by simp [Expr.from_slice, tagOf],
      by simp [Expr.nullable, flagIsNullable, nullableFlag], by simp, by simp⟩
  · have hf0 : f = 0 := hleaf (by omega)
    subst hf0
    have hlen := h3 rfl
    match rest, hlen with
    | [b], _ =>
      exact ⟨.byte (b % 256), by simp [Expr.from_slice, tagOf],
        by simp [Expr.nullable, flagIsNullable, nullableFlag], by simp, by simp⟩
  · have hf0 : f = 0 := hleaf (by omega)
    subst hf0
    exact ⟨.byteSet rest, by simp [Expr.from_slice, tagOf],
      by simp [Expr.nullable, flagIsNullable, nullableFlag], by simp, by simp⟩
  · rcases h5 rfl with ⟨e2, hrest, hv2, he1, he2', he4, he5, htag2, hflag⟩
    subst hrest
    refine ⟨.enot f e2, ?_, ?_, fun _ _ _ => rfl, ?_⟩
    · rcases hf with rfl | rfl <;> simp [Expr.from_slice, tagOf, flagsOf]
    · simp [Expr.nullable]
    · intro _
      exact ⟨e2, by rw [hflag], hv2, he1, he2', he4, he5, htag2⟩
  · have hlen := h6 rfl
    match rest, hlen with
    | [x, y, z], _ =>
      refine ⟨.erepeat f x y z, ?_, by simp [Expr.nullable], by simp, by simp⟩
      rcases hf with rfl | rfl <;> simp [Expr.from_slice, tagOf, flagsOf]
  · refine ⟨.concat f rest, ?_, by simp [Expr.nullable], by simp, by simp⟩
    rcases hf with rfl | rfl <;> simp [Expr.from_slice, tagOf, flagsOf]
  · refine ⟨.eor f rest, ?_, by simp [Expr.nullable], by simp, by simp⟩
    rcases hf with rfl | rfl <;> simp [Expr.from_slice, tagOf, flagsOf]
  · refine ⟨.eand f rest, ?_, by simp [Expr.nullable], by simp, by simp⟩
    rcases hf with rfl | rfl <;> simp [Expr.from_slice, tagOf, flagsOf]

/-! ### Invariant preservation -/

lemma goodRec_byte (s : ExprSet) (b : Nat) : goodRec s (Expr.byte b).serialize := by
  rw [serialize_byte]
  exact ⟨0, 3, [b], by norm_num, Or.inl rfl, by decide, by decide, fun _ => rfl,
    fun _ => rfl, fun h => absurd h (by decide), fun h => absurd h (by decide),
    fun h => absurd h (by decide), fun h => absurd h (by decide)⟩

lemma goodRec_byteSet (s : ExprSet) (bits : List Nat) :
    goodRec s (Expr.byteSet bits).serialize := by
  rw [serialize_byteSet]
  exact ⟨0, 4, bits, by norm_num, Or.inl rfl, by decide, by decide, fun _ => rfl,
    fun h => absurd h (by decide), fun h => absurd h (by decide),
    fun h => absurd h (by decide), fun h => absurd h (by decide),
    fun h => absurd h (by decide)⟩

lemma goodRec_erepeat (s : ExprSet) (b : Bool) (e lo hi : Nat) :
    goodRec s (Expr.erepeat (fromNullable b) e lo hi).serialize := by
  rw [serialize_erepeat _ _ _ _ fromNullable_or]
  exact ⟨fromNullable b, 6, [e, lo, hi], rfl, fromNullable_or, by decide, by decide,
    fun h => absurd h (by decide), fun h => absurd h (by decide), fun _ => rfl,
    fun h => absurd h (by decide), fun h => absurd h (by decide),
    fun h => absurd h (by decide)⟩

lemma goodRec_concat (s : ExprSet) (b : Bool) (es : List Nat) :
    goodRec s (Expr.concat (fromNullable b) es).serialize := by
  rw [serialize_concat _ _ fromNullable_or]
  exact ⟨fromNullable b, 7, es, rfl, fromNullable_or, by decide, by decide,
    fun h => absurd h (by decide), fun h => absurd h (by decide),
    fun h => absurd h (by decide), fun h => absurd h (by decide),
    fun h => absurd h (by decide), fun h => absurd h (by decide)⟩

lemma inv_mk_byte {s : ExprSet} (hInv : Inv s) (b : Nat) : Inv (s.mk_byte b).1 :=
  inv_mkExpr hInv (goodRec_byte s b)

lemma inv_mk_byte_set {s : ExprSet} (hInv : Inv s) (bits : List Nat) :
    Inv (s.mk_byte_set bits).1 := by
  unfold ExprSet.mk_byte_set
  split
  · exact hInv
  · exact inv_mkExpr hInv (goodRec_byteSet s bits)

lemma inv_mk_repeat {s : ExprSet} (hInv : Inv s) (e lo hi : Nat) :
    Inv (s.mk_repeat e lo hi).1 := by
  unfold ExprSet.mk_repeat
  split
  · split <;> exact hInv
  · split
    · exact hInv
    · split
      · exact hInv
      · split
        · exact hInv
        · exact inv_mkExpr hInv (goodRec_erepeat s _ e _ hi)

lemma inv_mk_concat {s : ExprSet} (hInv : Inv s) (args : List Nat) :
    Inv (s.mk_concat args).1 := by
  unfold ExprSet.mk_concat
  split
  · exact hInv
  · exact hInv
  · split
    · exact hInv
    · exact inv_mkExpr hInv (goodRec_concat s _ _)

lemma inv_mk_not {s : ExprSet} (hInv : Inv s) {e : Nat} (he : validRef s e) :
    Inv (s.mk_not e).1 := by
  unfold ExprSet.mk_not
  by_cases h1 : e = 1
  · rw [if_pos h1]
    exact hInv
  rw [if_neg h1]
  by_cases h5 : e = 5
  · rw [if_pos h5]
    exact hInv
  rw [if_neg h5]
  by_cases h4 : e = 4
  · rw [if_pos h4]
    exact hInv
  rw [if_neg h4]
  by_cases h2 : e = 2
  · rw [if_pos h2]
    exact hInv
  rw [if_neg h2]
  rcases get_decode hInv he with ⟨X, hget, hnul, henotd, h5d⟩
  rw [hget]
  by_cases htg : s.get_tag e = some 5
  · obtain ⟨e2, hXeq, -⟩ := h5d htg
    subst hXeq
    exact hInv
  · have hgr : goodRec s (Expr.enot (fromNullable (!X.nullable)) e).serialize := by
      rw [serialize_enot _ _ fromNullable_or]
      refine ⟨_, 5, [e], rfl, fromNullable_or, by decide, by decide,
        fun h => absurd h (by decide), fun h => absurd h (by decide),
        fun h => absurd h (by decide), fun h => absurd h (by decide),
        fun h => absurd h (by decide),
        fun _ => ⟨e, rfl, he, h1, h2, h4, h5, htg, by rw [hnul]⟩⟩
    cases X with
    | enot f e2 => exact absurd (henotd f e2 rfl) htg
    | emptyString => exact inv_mkExpr hInv hgr
    | noMatch => exact inv_mkExpr hInv hgr
    | byte b => exact inv_mkExpr hInv hgr
    | byteSet l => exact inv_mkExpr hInv hgr
    | erepeat f e2 lo hi => exact inv_mkExpr hInv hgr
    | concat f es => exact inv_mkExpr hInv hgr
    | eor f es => exact inv_mkExpr hInv hgr
    | eand f es => exact inv_mkExpr hInv hgr

lemma inv_mk_or {s : ExprSet} (hInv : Inv s) {args : List Nat}
    (hargs : ∀ a ∈ args, validRef s a) : Inv (s.mk_or args).1 := by
  rcases mk_or_eval s args with ⟨h4, hno⟩
  by_cases hm : 4 ∈ s.flatten_tag 8 args
  · rw [h4 hm]
    exact hInv
  · rcases hno hm with ⟨R, hsort, hmem, hnil, hone, hmore⟩
    rcases R with - | ⟨a, - | ⟨b, rest⟩⟩
    · rw [hnil rfl]
      exact hInv
    · rw [hone a rfl]
      exact hInv
    · rw [hmore (by simp)]
      apply inv_mkExpr hInv
      rw [serialize_eor _ _ fromNullable_or]
      refine ⟨_, 8, a :: b :: rest, rfl, fromNullable_or, by decide, by decide,
        fun h => absurd h (by decide), fun h => absurd h (by decide),
        fun h => absurd h (by decide), fun _ => ?_, fun h => absurd h (by decide),
        fun h => absurd h (by decide)⟩
      refine ⟨by simp, hsort, fun x hx => ?_⟩
      have hx' := (hmem x).mp hx
      have hel := flatten_tag_elem hInv (Or.inl rfl) hargs hx'.1
      exact ⟨hel.1, hx'.2, fun hx4 => hm (hx4 ▸ hx'.1), hel.2⟩

lemma inv_mk_and {s : ExprSet} (hInv : Inv s) {args : List Nat}
    (hargs : ∀ a ∈ args, validRef s a) : Inv (s.mk_and args).1 := by
  rcases mk_and_eval s args with ⟨h2, hno⟩
  by_cases hm : 2 ∈ s.flatten_tag 9 args
  · rw [h2 hm]
    exact hInv
  · rcases hno hm with ⟨R, hsort, hmem, hnil, hone, hemp, hmore⟩
    rcases R with - | ⟨a, - | ⟨b, rest⟩⟩
    · rw [hnil rfl]
      exact hInv
    · rw [hone a rfl]
      exact hInv
    · by_cases h1R : 1 ∈ a :: b :: rest
      · rw [hemp (by simp) h1R]
        split <;> exact hInv
      · rw [hmore (by simp) h1R]
        apply inv_mkExpr hInv
        rw [serialize_eand _ _ fromNullable_or]
        refine ⟨_, 9, a :: b :: rest, rfl, fromNullable_or, by decide, by decide,
          fun h => absurd h (by decide), fun h => absurd h (by decide),
          fun h => absurd h (by decide), fun h => absurd h (by decide),
          fun _ => ?_, fun h => absurd h (by decide)⟩
        refine ⟨by simp, hsort, fun x hx => ?_⟩
        have hx' := (hmem x).mp hx
        have hel := flatten_tag_elem hInv (Or.inr rfl) hargs hx'.1
        exact ⟨hel.1, fun hx2 => hm (hx2 ▸ hx'.1), hx'.2, hel.2⟩

/-! ### The construction relation and its invariant -/

lemma new_exprs (A : Nat) :
    (ExprSet.new A).exprs.records =
      [[1], [2], 4 :: List.replicate ((A + 31) / 32) 4294967295,
       [262, 3, 0, 4294967295], [6, 3, 1, 4294967295]] ∧
    (ExprSet.new A).alphabet_size = A ∧
    (ExprSet.new A).alphabet_words = (A + 31) / 32 := by
  have e1 : Expr.emptyString.serialize = [1] := serialize_emptyString
  have e2 : Expr.noMatch.serialize = [2] := serialize_noMatch
  have e3 : (Expr.byteSet (List.replicate ((A + 31) / 32) 4294967295)).serialize
      = 4 :: List.replicate ((A + 31) / 32) 4294967295 := serialize_byteSet _
  have e4 : (Expr.erepeat nullableFlag 3 0 4294967295).serialize
      = [262, 3, 0, 4294967295] := by
    rw [serialize_erepeat nullableFlag 3 0 4294967295 (Or.inr rfl)]
    norm_num [nullableFlag]
  have e5 : (Expr.erepeat 0 3 1 4294967295).serialize = [6, 3, 1, 4294967295] := by
    rw [serialize_erepeat 0 3 1 4294967295 (Or.inl rfl)]
  refine ⟨?_, rfl, rfl⟩
  simp only [ExprSet.new, VecHashMap.new, VecHashMap.insert, findRec, e1, e2, e3, e4, e5]
  norm_num [List.cons.injEq]

/-- `ExprSet::new` establishes the invariant. -/
lemma inv_new {A : Nat} (hA : 1 ≤ A) : Inv (ExprSet.new A) := by
  obtain ⟨hrec, hsize, hwords⟩ := new_exprs A
  refine ⟨?_, by rw [hwords]; omega, ?_, ?_, ?_, ?_, ?_, ?_, ?_⟩
  · rw [hrec]
    simp [List.nodup_cons, List.mem_cons, List.cons.injEq]
  · simp [VecHashMap.get, hrec]
  · simp [VecHashMap.get, hrec]
  · rw [hwords]
    simp [VecHashMap.get, hrec]
  · simp [VecHashMap.get, hrec]
  · simp [VecHashMap.get, hrec]
  · simp [ExprSet.len, VecHashMap.len, hrec]
  · intro ws hws
    rw [hrec] at hws
    simp only [List.mem_cons, List.not_mem_nil, or_false] at hws
    rcases hws with rfl | rfl | rfl | rfl | rfl
    · exact ⟨0, 1, [], by norm_num, Or.inl rfl, by decide, by decide, fun _ => rfl,
        fun h => absurd h (by decide), fun h => absurd h (by decide),
        fun h => absurd h (by decide), fun h => absurd h (by decide),
        fun h => absurd h (by decide)⟩
    · exact ⟨0, 2, [], by norm_num, Or.inl rfl, by decide, by decide, fun _ => rfl,
        fun h => absurd h (by decide), fun h => absurd h (by decide),
        fun h => absurd h (by decide), fun h => absurd h (by decide),
        fun h => absurd h (by decide)⟩
    · exact ⟨0, 4, List.replicate ((A + 31) / 32) 4294967295, by norm_num, Or.inl rfl,
        by decide, by decide, fun _ => rfl, fun h => absurd h (by decide),
        fun h => absurd h (by decide), fun h => absurd h (by decide),
        fun h => absurd h (by decide), fun h => absurd h (by decide)⟩
    · exact ⟨256, 6, [3, 0, 4294967295], by norm_num, Or.inr rfl, by decide, by decide,
        fun h => absurd h (by decide), fun h => absurd h (by decide), fun _ => rfl,
        fun h => absurd h (by decide), fun h => absurd h (by decide),
        fun h => absurd h (by decide)⟩
    · exact ⟨0, 6, [3, 1, 4294967295], by norm_num, Or.inl rfl, by decide, by decide,
        fun h => absurd h (by decide), fun h => absurd h (by decide), fun _ => rfl,
        fun h => absurd h (by decide), fun h => absurd h (by decide),
        fun h => absurd h (by decide)⟩

/-- Stores reachable by any sequence of smart-constructor calls on a
store created by `ExprSet::new`, with each call's preconditions (the
assertions and `u8`/`u32` argument ranges of the source). -/
inductive Built : ExprSet → Prop
  | new (A : Nat) (hA : 1 ≤ A) : Built (ExprSet.new A)
  | byte {s : ExprSet} (b : Nat) (hs : Built s) (hb : b < 256) : Built (s.mk_byte b).1
  | byte_set {s : ExprSet} (bits : List Nat) (hs : Built s)
      (hlen : bits.length = s.alphabet_words) : Built (s.mk_byte_set bits).1
  | rep {s : ExprSet} (e lo hi : Nat) (hs : Built s) (he : validRef s e)
      (hlo : lo < 4294967296) (hhi : hi < 4294967296) : Built (s.mk_repeat e lo hi).1
  | star {s : ExprSet} (e : Nat) (hs : Built s) (he : validRef s e) :
      Built (s.mk_star e).1
  | plus {s : ExprSet} (e : Nat) (hs : Built s) (he : validRef s e) :
      Built (s.mk_plus e).1
  | nt {s : ExprSet} (e : Nat) (hs : Built s) (he : validRef s e) :
      Built (s.mk_not e).1
  | orr {s : ExprSet} (args : List Nat) (hs : Built s)
      (hargs : ∀ a ∈ args, validRef s a) : Built (s.mk_or args).1
  | andd {s : ExprSet} (args : List Nat) (hs : Built s)
      (hargs : ∀ a ∈ args, validRef s a) : Built (s.mk_and args).1
  | cat {s : ExprSet} (args : List Nat) (hs : Built s)
      (hargs : ∀ a ∈ args, validRef s a) : Built (s.mk_concat args).1

/-- Every reachable store satisfies the invariant. -/
theorem built_inv {s : ExprSet} (h : Built s) : Inv s := by
  induction h with
  | new A hA => exact inv_new hA
  | byte b hs hb ih => exact inv_mk_byte ih b
  | byte_set bits hs hlen ih => exact inv_mk_byte_set ih bits
  | rep e lo hi hs he hlo hhi ih => exact inv_mk_repeat ih e lo hi
  | star e hs he ih => exact inv_mk_repeat ih e 0 4294967295
  | plus e hs he ih => exact inv_mk_repeat ih e 1 4294967295
  | nt e hs he ih => exact inv_mk_not ih he
  | orr args hs hargs ih => exact inv_mk_or ih hargs
  | andd args hs hargs ih => exact inv_mk_and ih hargs
  | cat args hs hargs ih => exact inv_mk_concat ih args

/-! ### Reference nullability computation -/

/-- The reference recursive nullability computation over `get` used by
the specification: `EmptyString` nullable; `NoMatch`/`Byte`/`ByteSet`
not; `Not` the negation of its child; `Repeat(e, lo, hi)` nullable iff
`lo = 0`; `Concat`/`And` all children; `Or` some child.  Children have
strictly smaller references, so fuel `r` suffices at reference `r`. -/
def nullableSpec (s : ExprSet) : Nat → Nat → Bool
  | 0, _ => false
  | fuel + 1, r =>
    match s.get r with
    | some .emptyString => true
    | some .noMatch => false
    | some (.byte _) => false
    | some (.byteSet _) => false
    | some (.enot _ e) => !(nullableSpec s fuel e)
    | some (.erepeat _ _ lo _) => lo == 0
    | some (.concat _ es) => es.all (nullableSpec s fuel)
    | some (.eor _ es) => es.any (nullableSpec s fuel)
    | some (.eand _ es) => es.all (nullableSpec s fuel)
    | none => false

/-- C1: the nullability invariant FAILS on the code at `EmptyString`
(Ref 1): `mk_repeat(AnyByte, 0, 0)` returns Ref 1, whose language
contains the empty sequence and whose reference recursive nullability
is `true`, yet `is_nullable(Ref 1)` is `false` — the pre-populated
`EmptyString` record (and `Expr::get_flags` for leaves) carries no
NULLABLE flag. -/
theorem is_nullable_bug :
    ((ExprSet.new 256).mk_repeat 3 0 0).2 = 1 ∧
    (ExprSet.new 256).is_nullable 1 = false ∧
    nullableSpec (ExprSet.new 256) 1 1 = true := by
  decide

/-- C3, counterexample: `mk_repeat(NoMatch, 1, 1)` returns `NoMatch`
(Ref 2), not `EmptyString` (Ref 1) — the `e = NoMatch` test precedes
the `lo = hi` test. -/
theorem mk_repeat_kk_cex :
    ((ExprSet.new 256).mk_repeat 2 1 1).2 = 2 ∧
    ¬(((ExprSet.new 256).mk_repeat 2 1 1).2 = 1) := by
  decide

/-- C3, amended: for every `e` other than `NoMatch` (Ref 2) and every
`k`, `mk_repeat(e, k, k)` returns `EmptyString` (Ref 1) and leaves the
store unchanged. -/
theorem mk_repeat_kk_empty (s : ExprSet) (e k : Nat) (h : e ≠ 2) :
    s.mk_repeat e k k = (s, 1) := by
  unfold ExprSet.mk_repeat
  rw [if_neg h, if_pos rfl]

theorem mk_repeat_kk_empty_witness :
    (ExprSet.new 256).mk_repeat 3 7 7 = (ExprSet.new 256, 1) :=
  mk_repeat_kk_empty (ExprSet.new 256) 3 7 (by decide)

/-- C4: with alphabet 256, `mk_and([mk_star(mk_byte('a')), EmptyString])`
returns `NoMatch` (Ref 2), NOT `EmptyString` (Ref 1) as the
specification's scenario S3 requires: the sweep reads
`is_nullable(EmptyString) = false` (the missing NULLABLE flag of C1)
and so concludes the intersection is empty. -/
theorem mk_and_empty_star_bug :
    ((((ExprSet.new 256).mk_byte 97).1.mk_star ((ExprSet.new 256).mk_byte 97).2).1.mk_and [(((ExprSet.new 256).mk_byte 97).1.mk_star ((ExprSet.new 256).mk_byte 97).2).2, 1]).2 = 2 ∧
    ((((ExprSet.new 256).mk_byte 97).1.mk_star ((ExprSet.new 256).mk_byte 97).2).1.mk_and [(((ExprSet.new 256).mk_byte 97).1.mk_star ((ExprSet.new 256).mk_byte 97).2).2, 1]).2 ≠ 1 := by
  decide

/-- C5: `mk_or` is commutative in its two arguments: flattening
distributes over the argument list and the sort makes the flattened
list canonical up to permutation. -/
theorem mk_or_comm (s : ExprSet) (a b : Nat) : s.mk_or [a, b] = s.mk_or [b, a] := by
  have hperm : List.Perm (s.flatten_tag 8 [a, b]) (s.flatten_tag 8 [b, a]) := by
    have h1 : ([a, b] : List Nat) = [a] ++ [b] := rfl
    have h2 : ([b, a] : List Nat) = [b] ++ [a] := rfl
    rw [h1, h2, flatten_tag_append, flatten_tag_append]
    exact List.perm_append_comm
  unfold ExprSet.mk_or
  rw [sortRefs_eq_of_perm hperm]

/-- C8: `mk_byte_set` of the all-zero bitmap returns `NoMatch` (Ref 2);
of the all-one bitmap returns `AnyByte` (Ref 3), the pre-populated
record. -/
theorem mk_byte_set_bounds (s : ExprSet) (hs : Built s) :
    s.mk_byte_set (List.replicate s.alphabet_words 0) = (s, 2) ∧
    s.mk_byte_set (List.replicate s.alphabet_words 4294967295) = (s, 3) := by
  have hInv := built_inv hs
  constructor
  · unfold ExprSet.mk_byte_set
    rw [if_pos]
    rw [List.all_eq_true]
    intro x hx
    simp [List.eq_of_mem_replicate hx]
  · unfold ExprSet.mk_byte_set
    rw [if_neg]
    · have h3 : s.exprs.get 3 =
          some ((Expr.byteSet (List.replicate s.alphabet_words 4294967295)).serialize) := by
        rw [serialize_byteSet]
        exact hInv.base3
      exact mkExpr_of_get hInv.nodup h3
    · rw [List.all_eq_true]
      intro hall
      have hmem : (4294967295 : Nat) ∈ List.replicate s.alphabet_words 4294967295 :=
        List.mem_replicate.mpr ⟨by have := hInv.aw_pos; omega, rfl⟩
      have := hall _ hmem
      simp at this

theorem mk_byte_set_bounds_witness :
    (ExprSet.new 256).mk_byte_set
        (List.replicate (ExprSet.new 256).alphabet_words 0) = (ExprSet.new 256, 2) ∧
    (ExprSet.new 256).mk_byte_set
        (List.replicate (ExprSet.new 256).alphabet_words 4294967295) =
      (ExprSet.new 256, 3) :=
  mk_byte_set_bounds (ExprSet.new 256) (Built.new 256 (by decide))

/-- C9: immediately after `ExprSet::new(A)` with `A > 0`, `len() = 5`
and the reserved references decode to their fixed meanings, with the
NULLABLE flag set on `AnyString` (Ref 4) and clear on `NonEmptyString`
(Ref 5). -/
theorem new_reserved_refs (A : Nat) (hA : 0 < A) :
    (ExprSet.new A).len = 5 ∧
    (ExprSet.new A).get 1 = some .emptyString ∧
    (ExprSet.new A).get 2 = some .noMatch ∧
    (ExprSet.new A).get 3 =
      some (.byteSet (List.replicate ((ExprSet.new A).alphabet_words) 4294967295)) ∧
    (ExprSet.new A).get 4 = some (.erepeat 256 3 0 4294967295) ∧
    (ExprSet.new A).is_nullable 4 = true ∧
    (ExprSet.new A).get 5 = some (.erepeat 0 3 1 4294967295) ∧
    (ExprSet.new A).is_nullable 5 = false := by
  obtain ⟨hrec, hsize, hwords⟩ := new_exprs A
  refine ⟨by simp [ExprSet.len, VecHashMap.len, hrec], ?_, ?_, ?_, ?_, ?_, ?_, ?_⟩
  · simp [ExprSet.get, VecHashMap.get, hrec, Expr.from_slice, tagOf]
  · simp [ExprSet.get, VecHashMap.get, hrec, Expr.from_slice, tagOf]
  · rw [hwords]
    simp [ExprSet.get, VecHashMap.get, hrec, Expr.from_slice, tagOf]
  · simp [ExprSet.get, VecHashMap.get, hrec, Expr.from_slice, tagOf, flagsOf]
  · simp [ExprSet.is_nullable, ExprSet.get_flags, VecHashMap.get, hrec, flagsOf,
      flagIsNullable, nullableFlag]
  · simp [ExprSet.get, VecHashMap.get, hrec, Expr.from_slice, tagOf, flagsOf]
  · simp [ExprSet.is_nullable, ExprSet.get_flags, VecHashMap.get, hrec, flagsOf,
      flagIsNullable, nullableFlag]

theorem new_reserved_refs_witness :
    (ExprSet.new 256).len = 5 ∧
    (ExprSet.new 256).get 1 = some .emptyString ∧
    (ExprSet.new 256).get 2 = some .noMatch ∧
    (ExprSet.new 256).get 3 =
      some (.byteSet (List.replicate ((ExprSet.new 256).alphabet_words) 4294967295)) ∧
    (ExprSet.new 256).get 4 = some (.erepeat 256 3 0 4294967295) ∧
    (ExprSet.new 256).is_nullable 4 = true ∧
    (ExprSet.new 256).get 5 = some (.erepeat 0 3 1 4294967295) ∧
    (ExprSet.new 256).is_nullable 5 = false :=
  new_reserved_refs 256 (by decide)

/-- C10: the guard `min + 1 == max` is a 32-bit addition evaluated
before the `min > max` test, so under wraparound semantics
`mk_repeat(e, 2^32 - 1, 0)` returns `e` (not `NoMatch`) for every
`e ≠ NoMatch`. -/
theorem mk_repeat_wraparound (s : ExprSet) (e : Nat) (h : e ≠ 2) :
    s.mk_repeat e 4294967295 0 = (s, e) := by
  unfold ExprSet.mk_repeat
  rw [if_neg h, if_neg (by decide), if_pos (by decide)]

theorem mk_repeat_wraparound_witness :
    (ExprSet.new 256).mk_repeat 3 4294967295 0 = (ExprSet.new 256, 3) :=
  mk_repeat_wraparound (ExprSet.new 256) 3 (by decide)

/-- C2: the record heap (modelled from spec §4.1) is content-deduplicated:
inserting a word sequence yields a reference that reads back to exactly
that sequence; no-duplicate storage is preserved; re-inserting an
already-present sequence returns without any change (in particular
`len()` is unchanged); a sequence already stored at `r` gets exactly
`r` back; and two references reading back the same word contents are
identical. -/
theorem insert_dedup_spec (m : VecHashMap) (ws : List Nat)
    (hn : m.records.Nodup) :
    (m.insert ws).1.get (m.insert ws).2 = some ws ∧
    (m.insert ws).1.records.Nodup ∧
    (ws ∈ m.records → (m.insert ws).1 = m ∧ (m.insert ws).1.len = m.len) ∧
    (∀ r, m.get r = some ws → m.insert ws = (m, r)) ∧
    (∀ r1 r2 w, (m.insert ws).1.get r1 = some w →
      (m.insert ws).1.get r2 = some w → r1 = r2) := by
  refine ⟨VecHashMap.get_insert_self m ws, VecHashMap.insert_nodup hn, ?_, ?_, ?_⟩
  · intro hmem
    have h1 : (m.insert ws).1 = m := by
      unfold VecHashMap.insert
      cases hf : findRec ws m.records 0 with
      | some i => rfl
      | none => exact absurd (findRec_eq_none.mp hf) (by simpa using hmem)
    exact ⟨h1, by rw [h1]⟩
  · intro r hr
    exact VecHashMap.insert_of_get hn hr
  · intro r1 r2 w hg1 hg2
    have hnod : (m.insert ws).1.records.Nodup := VecHashMap.insert_nodup hn
    unfold VecHashMap.get at hg1 hg2
    split at hg1
    · exact absurd hg1 (by simp)
    · split at hg2
      · exact absurd hg2 (by simp)
      · rename_i hr1 hr2
        have hlt : r1 - 1 < (m.insert ws).1.records.length :=
          (List.get?_eq_some.mp hg1).1
        have := List.get?_inj hlt hnod (hg1.trans hg2.symm)
        omega

theorem insert_dedup_spec_witness :
    let m : VecHashMap := (ExprSet.new 256).exprs
    let ws : List Nat := [3, 97]
    (m.insert ws).1.get (m.insert ws).2 = some ws ∧
    (m.insert ws).1.records.Nodup ∧
    (ws ∈ m.records → (m.insert ws).1 = m ∧ (m.insert ws).1.len = m.len) ∧
    (∀ r, m.get r = some ws → m.insert ws = (m, r)) ∧
    (∀ r1 r2 w, (m.insert ws).1.get r1 = some w →
      (m.insert ws).1.get r2 = some w → r1 = r2) :=
  insert_dedup_spec (ExprSet.new 256).exprs [3, 97] (by decide)

/-- C7: `mk_not` is involutive on every reference of a reachable store:
the four fixed-point shortcuts pair up, a stored `Not` node returns its
child, whose renewed negation hash-conses back to the original record,
and any other node's double negation first inserts a `Not` record and
then recovers its child. -/
theorem mk_not_involutive (s : ExprSet) (hs : Built s) {a : Nat}
    (ha : validRef s a) : ((s.mk_not a).1.mk_not (s.mk_not a).2).2 = a := by
  have hInv := built_inv hs
  by_cases h1 : a = 1
  · subst h1
    rw [show s.mk_not 1 = (s, 5) by unfold ExprSet.mk_not; rw [if_pos rfl]]
    show (s.mk_not 5).2 = 1
    unfold ExprSet.mk_not
    rw [if_neg (by decide), if_pos rfl]
  by_cases h5 : a = 5
  · subst h5
    rw [show s.mk_not 5 = (s, 1) by
      unfold ExprSet.mk_not; rw [if_neg (by decide), if_pos rfl]]
    show (s.mk_not 1).2 = 5
    unfold ExprSet.mk_not
    rw [if_pos rfl]
  by_cases h4 : a = 4
  · subst h4
    rw [show s.mk_not 4 = (s, 2) by
      unfold ExprSet.mk_not; rw [if_neg (by decide), if_neg (by decide), if_pos rfl]]
    show (s.mk_not 2).2 = 4
    unfold ExprSet.mk_not
    rw [if_neg (by decide), if_neg (by decide), if_neg (by decide), if_pos rfl]
  by_cases h2 : a = 2
  · subst h2
    rw [show s.mk_not 2 = (s, 4) by
      unfold ExprSet.mk_not
      rw [if_neg (by decide), if_neg (by decide), if_neg (by decide), if_pos rfl]]
    show (s.mk_not 4).2 = 2
    unfold ExprSet.mk_not
    rw [if_neg (by decide), if_neg (by decide), if_pos rfl]
  rcases validRef_iff_get.mp ha with ⟨ws, hwa⟩
  rcases record_shape hInv hwa with
    ⟨f, t, rest, hws, hf, ht1, ht9, htag, hga, hnul, hleaf, h3a, h6a, h8a, h9a, h5a⟩
  by_cases ht5 : t = 5
  · subst ht5
    rcases h5a rfl with ⟨e2, hrest, hv2, he1, he2', he4, he5, htag2, hflag⟩
    subst hrest
    have hgeta : s.get a = some (.enot f e2) := by
      unfold ExprSet.get
      rw [hwa, hws]
      rcases hf with rfl | rfl <;> simp [Expr.from_slice, tagOf, flagsOf]
    have hnot1 : s.mk_not a = (s, e2) := by
      unfold ExprSet.mk_not
      rw [if_neg h1, if_neg h5, if_neg h4, if_neg h2, hgeta]
    rw [hnot1]
    show (s.mk_not e2).2 = a
    rcases get_decode hInv hv2 with ⟨X2, hget2, hnul2, henotd2, -⟩
    have hmk : s.mkExpr (Expr.enot (fromNullable (!X2.nullable)) e2) = (s, a) := by
      apply mkExpr_of_get hInv.nodup
      rw [serialize_enot _ _ fromNullable_or, hnul2, ← hflag, ← hws]
      exact hwa
    unfold ExprSet.mk_not
    rw [if_neg he1, if_neg he5, if_neg he4, if_neg he2', hget2]
    cases X2 with
    | enot f3 e3 => exact absurd (henotd2 f3 e3 rfl) htag2
    | emptyString =>
      simp only [nullableOpt]
      rw [hmk]
    | noMatch =>
      simp only [nullableOpt]
      rw [hmk]
    | byte b =>
      simp only [nullableOpt]
      rw [hmk]
    | byteSet l =>
      simp only [nullableOpt]
      rw [hmk]
    | erepeat f3 e3 lo hi =>
      simp only [nullableOpt]
      rw [hmk]
    | concat f3 es =>
      simp only [nullableOpt]
      rw [hmk]
    | eor f3 es =>
      simp only [nullableOpt]
      rw [hmk]
    | eand f3 es =>
      simp only [nullableOpt]
      rw [hmk]
  · have htagne : s.get_tag a ≠ some 5 := by
      rw [htag]
      intro hcon
      exact ht5 (Option.some.inj hcon)
    rcases get_decode hInv ha with ⟨X, hget, hnulX, henotd, -⟩
    have hnot1 : s.mk_not a =
        s.mkExpr (Expr.enot (fromNullable (!X.nullable)) a) := by
      unfold ExprSet.mk_not
      rw [if_neg h1, if_neg h5, if_neg h4, if_neg h2, hget]
      cases X with
      | enot f3 e3 => exact absurd (henotd f3 e3 rfl) htagne
      | emptyString => simp [nullableOpt]
      | noMatch => simp [nullableOpt]
      | byte b => simp [nullableOpt]
      | byteSet l => simp [nullableOpt]
      | erepeat f3 e3 lo hi => simp [nullableOpt]
      | concat f3 es => simp [nullableOpt]
      | eor f3 es => simp [nullableOpt]
      | eand f3 es => simp [nullableOpt]
    rw [hnot1]
    have hrec1 := mkExpr_get_self s (Expr.enot (fromNullable (!X.nullable)) a)
    have hExt := mkExpr_extendsTo s (Expr.enot (fromNullable (!X.nullable)) a)
    have hn1 : (s.mkExpr (Expr.enot (fromNullable (!X.nullable)) a)).2 ≠ 1 := by
      intro heq
      rw [heq, hExt.get_raw hInv.base1, serialize_enot _ _ fromNullable_or] at hrec1
      simp at hrec1
    have hn5 : (s.mkExpr (Expr.enot (fromNullable (!X.nullable)) a)).2 ≠ 5 := by
      intro heq
      rw [heq, hExt.get_raw hInv.base5, serialize_enot _ _ fromNullable_or] at hrec1
      simp at hrec1
    have hn4 : (s.mkExpr (Expr.enot (fromNullable (!X.nullable)) a)).2 ≠ 4 := by
      intro heq
      rw [heq, hExt.get_raw hInv.base4, serialize_enot _ _ fromNullable_or] at hrec1
      simp at hrec1
    have hn2 : (s.mkExpr (Expr.enot (fromNullable (!X.nullable)) a)).2 ≠ 2 := by
      intro heq
      rw [heq, hExt.get_raw hInv.base2, serialize_enot _ _ fromNullable_or] at hrec1
      simp at hrec1
    have hget2 : (s.mkExpr (Expr.enot (fromNullable (!X.nullable)) a)).1.get
        ((s.mkExpr (Expr.enot (fromNullable (!X.nullable)) a)).2) =
        some (Expr.enot (fromNullable (!X.nullable)) a) := by
      unfold ExprSet.get
      rw [hrec1, serialize_enot _ _ fromNullable_or]
      rcases fromNullable_or (b := !X.nullable) with hh | hh <;> rw [hh] <;>
        simp [Expr.from_slice, tagOf, flagsOf]
    unfold ExprSet.mk_not
    rw [if_neg hn1, if_neg hn5, if_neg hn4, if_neg hn2, hget2]

theorem mk_not_involutive_witness :
    (((ExprSet.new 256).mk_not 3).1.mk_not ((ExprSet.new 256).mk_not 3).2).2 = 3 :=
  mk_not_involutive (ExprSet.new 256) (Built.new 256 (by decide)) (by decide)

/-! ### Associativity machinery -/

lemma flatten_tag_single (s : ExprSet) (t x : Nat) :
    s.flatten_tag t [x] = if s.get_tag x = some t then s.get_args x else [x] := by
  simp [ExprSet.flatten_tag]

lemma base_tag1 {s : ExprSet} (hInv : Inv s) : s.get_tag 1 = some 1 := by
  unfold ExprSet.get_tag
  rw [hInv.base1]
  simp [tagOf]

lemma base_tag2 {s : ExprSet} (hInv : Inv s) : s.get_tag 2 = some 2 := by
  unfold ExprSet.get_tag
  rw [hInv.base2]
  simp [tagOf]

lemma base_tag4 {s : ExprSet} (hInv : Inv s) : s.get_tag 4 = some 6 := by
  unfold ExprSet.get_tag
  rw [hInv.base4]
  simp [tagOf]

lemma base1_flag {s : ExprSet} (hInv : Inv s) : s.is_nullable 1 = false := by
  unfold ExprSet.is_nullable ExprSet.get_flags
  rw [hInv.base1]
  decide

lemma any_congr_valid {s s2 : ExprSet} (hE : ExtendsTo s s2) :
    ∀ {S : List Nat}, (∀ x ∈ S, validRef s x) →
      S.any s2.is_nullable = S.any s.is_nullable := by
  intro S
  induction S with
  | nil => simp
  | cons a rest ih =>
    intro h
    rw [List.any_cons, List.any_cons, hE.is_nullable_eq (h a (by simp)),
      ih (fun x hx => h x (by simp [hx]))]

lemma all_congr_valid {s s2 : ExprSet} (hE : ExtendsTo s s2) :
    ∀ {S : List Nat}, (∀ x ∈ S, validRef s x) →
      S.all s2.is_nullable = S.all s.is_nullable := by
  intro S
  induction S with
  | nil => simp
  | cons a rest ih =>
    intro h
    rw [List.all_cons, List.all_cons, hE.is_nullable_eq (h a (by simp)),
      ih (fun x hx => h x (by simp [hx]))]

lemma two_mem_two_le {L : List Nat} {u v : Nat} (hu : u ∈ L) (hv : v ∈ L)
    (huv : u ≠ v) : 2 ≤ L.length := by
  rcases L with - | ⟨x, - | ⟨y, rest⟩⟩
  · simp at hu
  · simp at hu hv
    exact absurd (hu.trans hv.symm) huv
  · simp

/-- Result description of an `mk_or` call: either `AnyString` was hit,
or a canonical survivor list `S` settles the result with the canonical
`Or` record stored at the returned reference in the insertion case. -/
def OrOutcome (s s' : ExprSet) (r : Nat) (M : List Nat) : Prop :=
  (4 ∈ M ∧ r = 4 ∧ s' = s) ∨
  (4 ∉ M ∧ ∃ S, List.Sorted (· < ·) S ∧ (∀ x, x ∈ S ↔ x ∈ M ∧ x ≠ 2) ∧
    (∀ x ∈ S, validRef s x ∧ s.get_tag x ≠ some 8) ∧
    ((S = [] ∧ r = 2 ∧ s' = s) ∨ (S = [r] ∧ s' = s) ∨
     (2 ≤ S.length ∧
       s'.exprs.get r = some ((fromNullable (S.any s.is_nullable) + 8) :: S))))

lemma mk_or_main {s : ExprSet} (hInv : Inv s) {args : List Nat}
    (hargs : ∀ x ∈ args, validRef s x) :
    ExtendsTo s (s.mk_or args).1 ∧ Inv (s.mk_or args).1 ∧
      validRef (s.mk_or args).1 (s.mk_or args).2 ∧
      OrOutcome s (s.mk_or args).1 (s.mk_or args).2 (s.flatten_tag 8 args) := by
  refine ⟨mk_or_extendsTo s args, inv_mk_or hInv hargs, ?_, ?_⟩
  · rcases mk_or_eval s args with ⟨h4, hno⟩
    by_cases hm : 4 ∈ s.flatten_tag 8 args
    · rw [h4 hm]
      exact ⟨by omega, le_trans (by omega) hInv.five_le⟩
    · rcases hno hm with ⟨R, hsort, hmem, hnil, hone, hmore⟩
      rcases R with - | ⟨a, - | ⟨b, rest⟩⟩
      · rw [hnil rfl]
        exact ⟨by omega, le_trans (by omega) hInv.five_le⟩
      · rw [hone a rfl]
        exact (flatten_tag_elem hInv (Or.inl rfl) hargs ((hmem a).mp (by simp)).1).1
      · rw [hmore (by simp)]
        exact mkExpr_valid s _
  · rcases mk_or_eval s args with ⟨h4, hno⟩
    by_cases hm : 4 ∈ s.flatten_tag 8 args
    · rw [h4 hm]
      exact Or.inl ⟨hm, rfl, rfl⟩
    · rcases hno hm with ⟨R, hsort, hmem, hnil, hone, hmore⟩
      refine Or.inr ⟨hm, R, hsort, ?_, ?_, ?_⟩
      · intro x
        rw [hmem x]
      · intro x hx
        have hel := flatten_tag_elem hInv (Or.inl rfl) hargs ((hmem x).mp hx).1
        exact ⟨hel.1, hel.2⟩
      · rcases R with - | ⟨a, - | ⟨b, rest⟩⟩
        · rw [hnil rfl]
          exact Or.inl ⟨rfl, rfl, rfl⟩
        · rw [hone a rfl]
          exact Or.inr (Or.inl ⟨rfl, rfl⟩)
        · rw [hmore (by simp)]
          refine Or.inr (Or.inr ⟨by simp, ?_⟩)
          rw [show ((fromNullable ((a :: b :: rest).any s.is_nullable) + 8) ::
              a :: b :: rest) =
            (Expr.eor (fromNullable ((a :: b :: rest).any s.is_nullable))
              (a :: b :: rest)).serialize from
            (serialize_eor _ _ fromNullable_or).symm]
          exact mkExpr_get_self s _

/-- 4-membership and 2-excluded membership of one flattened list match
those of a reference list. -/
def OrMatch (N M : List Nat) : Prop :=
  (4 ∈ N ↔ 4 ∈ M) ∧ (4 ∉ M → ∀ x, x ≠ 2 → (x ∈ N ↔ x ∈ M))

lemma orMatch_symm {N M : List Nat} (h : OrMatch N M) : OrMatch M N := by
  refine ⟨h.1.symm, fun h4 x hx => ?_⟩
  rw [h.2 (fun hc => h4 (h.1.mpr hc)) x hx]

lemma orMatch_append {N M C : List Nat} (h : OrMatch N M) :
    OrMatch (N ++ C) (M ++ C) := by
  constructor
  · rw [List.mem_append, List.mem_append, h.1]
  · intro h4 x hx
    have h4M : 4 ∉ M := fun hc => h4 (List.mem_append.mpr (Or.inl hc))
    rw [List.mem_append, List.mem_append, h.2 h4M x hx]

lemma orMatch_append_left {N M C : List Nat} (h : OrMatch N M) :
    OrMatch (C ++ N) (C ++ M) := by
  constructor
  · rw [List.mem_append, List.mem_append, h.1]
  · intro h4 x hx
    have h4M : 4 ∉ M := fun hc => h4 (List.mem_append.mpr (Or.inr hc))
    rw [List.mem_append, List.mem_append, h.2 h4M x hx]

/-- Splicing the result of an `mk_or` call back into another `mk_or`
argument list contributes exactly the original survivors (modulo the
dropped `NoMatch` and the absorbing `AnyString`). -/
lemma mk_or_splice {s s' : ExprSet} {r : Nat} {M : List Nat}
    (hInv' : Inv s') (hO : OrOutcome s s' r M) :
    OrMatch (s'.flatten_tag 8 [r]) M := by
  rcases hO with ⟨h4, rfl, rfl⟩ | ⟨h4, S, hsort, hmem, hval, hcase⟩
  · rw [flatten_tag_single, if_neg (by rw [base_tag4 hInv']; simp)]
    exact ⟨by simp [h4], fun hc => absurd h4 hc⟩
  · rcases hcase with ⟨rfl, rfl, rfl⟩ | ⟨hS, rfl⟩ | ⟨hlen, hget⟩
    · rw [flatten_tag_single, if_neg (by rw [base_tag2 hInv']; simp)]
      refine ⟨by simp [h4], fun _ x hx => ?_⟩
      simp only [List.mem_singleton]
      constructor
      · rintro rfl
        exact absurd rfl hx
      · intro hxM
        exact absurd ((hmem x).mpr ⟨hxM, hx⟩) (by simp)
    · subst hS
      rw [flatten_tag_single, if_neg (hval r (by simp)).2]
      have hrmem := (hmem r).mp (by simp)
      refine ⟨?_, fun _ x hx => ?_⟩
      · simp only [List.mem_singleton]
        constructor
        · rintro rfl
          exact hrmem.1
        · intro hc
          exact absurd hc h4
      · simp only [List.mem_singleton]
        constructor
        · rintro rfl
          exact hrmem.1
        · intro hxM
          have := (hmem x).mpr ⟨hxM, hx⟩
          simpa using this
    · have htagr : s'.get_tag r = some 8 := by
        unfold ExprSet.get_tag
        rw [hget]
        rcases fromNullable_or (b := S.any s.is_nullable) with hh | hh <;>
          rw [hh] <;> simp [tagOf]
      have hargsr : s'.get_args r = S := by
        unfold ExprSet.get_args
        rw [hget]
        rcases fromNullable_or (b := S.any s.is_nullable) with hh | hh <;>
          rw [hh] <;> simp [tagOf]
      rw [flatten_tag_single, if_pos htagr, hargsr]
      refine ⟨?_, fun _ x hx => ?_⟩
      · constructor
        · intro hc
          exact absurd ((hmem 4).mp hc).1 h4
        · intro hc
          exact absurd hc h4
      · rw [hmem x]
        constructor
        · rintro ⟨hxM, -⟩
          exact hxM
        · intro hxM
          exact ⟨hxM, hx⟩

/-- Re-running `mk_or` over an argument list whose flattened members
match a previous call's (on a possibly larger store) returns the very
same reference: hash-consing finds the previously inserted record. -/
lemma mk_or_again {s s' s2 : ExprSet} {r : Nat} {M : List Nat}
    (hO : OrOutcome s s' r M) (hInv2 : Inv s2)
    (hEs : ExtendsTo s s2) (hEs' : ExtendsTo s' s2)
    {args2 : List Nat}
    (hmatch : OrMatch (s2.flatten_tag 8 args2) M) :
    (s2.mk_or args2).2 = r := by
  rcases mk_or_eval s2 args2 with ⟨h4, hno⟩
  rcases hO with ⟨h4M, rfl, rfl⟩ | ⟨h4M, S, hsort, hmem, hval, hcase⟩
  · rw [h4 (hmatch.1.mpr h4M)]
  · have h4M2 : 4 ∉ s2.flatten_tag 8 args2 := fun hc => h4M (hmatch.1.mp hc)
    rcases hno h4M2 with ⟨R, hsortR, hmemR, hnil, hone, hmore⟩
    have hRS : R = S := by
      apply sorted_lt_eq hsortR hsort
      intro x
      rw [hmemR x, hmem x]
      by_cases hx2 : x = 2
      · subst hx2
        simp
      · rw [hmatch.2 h4M x hx2]
    subst hRS
    rcases hcase with ⟨rfl, rfl, rfl⟩ | ⟨hS, rfl⟩ | ⟨hlen, hget⟩
    · rw [hnil rfl]
    · subst hS
      rw [hone r rfl]
    · rw [hmore hlen]
      have hflag : R.any s2.is_nullable = R.any s.is_nullable :=
        any_congr_valid hEs (fun x hx => (hval x hx).1)
      rw [hflag]
      have hpresent : s2.exprs.get r =
          some ((Expr.eor (fromNullable (R.any s.is_nullable)) R).serialize) := by
        rw [serialize_eor _ _ fromNullable_or]
        exact hEs'.get_raw hget
      rw [mkExpr_of_get hInv2.nodup hpresent]

/-- Result description of an `mk_and` call.  A surviving `EmptyString`
(which the store wrongly marks non-nullable, see C1/C4) always forces
`NoMatch`, so the `had_empty` branch yields `r = 2`. -/
def AndOutcome (s s' : ExprSet) (r : Nat) (M : List Nat) : Prop :=
  (2 ∈ M ∧ r = 2 ∧ s' = s) ∨
  (2 ∉ M ∧ ∃ S, List.Sorted (· < ·) S ∧ (∀ x, x ∈ S ↔ x ∈ M ∧ x ≠ 4) ∧
    (∀ x ∈ S, validRef s x ∧ s.get_tag x ≠ some 9) ∧
    ((S = [] ∧ r = 4 ∧ s' = s) ∨ (S = [r] ∧ s' = s) ∨
     (2 ≤ S.length ∧ 1 ∈ S ∧ r = 2 ∧ s' = s) ∨
     (2 ≤ S.length ∧ 1 ∉ S ∧
       s'.exprs.get r = some ((fromNullable (S.all s.is_nullable) + 9) :: S))))

lemma all_false_of_one_mem {s : ExprSet} (hInv : Inv s) {R : List Nat}
    (h1R : 1 ∈ R) : R.all s.is_nullable = false := by
  rw [Bool.eq_false_iff]
  intro hall
  have h := List.all_eq_true.mp hall 1 h1R
  rw [base1_flag hInv] at h
  exact absurd h (by decide)

lemma mk_and_main {s : ExprSet} (hInv : Inv s) {args : List Nat}
    (hargs : ∀ x ∈ args, validRef s x) :
    ExtendsTo s (s.mk_and args).1 ∧ Inv (s.mk_and args).1 ∧
      validRef (s.mk_and args).1 (s.mk_and args).2 ∧
      AndOutcome s (s.mk_and args).1 (s.mk_and args).2 (s.flatten_tag 9 args) := by
  refine ⟨mk_and_extendsTo s args, inv_mk_and hInv hargs, ?_, ?_⟩
  · rcases mk_and_eval s args with ⟨h2, hno⟩
    by_cases hm : 2 ∈ s.flatten_tag 9 args
    · rw [h2 hm]
      exact ⟨by omega, le_trans (by omega) hInv.five_le⟩
    · rcases hno hm with ⟨R, hsort, hmem, hnil, hone, hemp, hmore⟩
      rcases R with - | ⟨a, - | ⟨b, rest⟩⟩
      · rw [hnil rfl]
        exact ⟨by omega, le_trans (by omega) hInv.five_le⟩
      · rw [hone a rfl]
        exact (flatten_tag_elem hInv (Or.inr rfl) hargs ((hmem a).mp (by simp)).1).1
      · by_cases h1R : 1 ∈ a :: b :: rest
        · rw [hemp (by simp) h1R, all_false_of_one_mem hInv h1R]
          simp only [Bool.false_eq_true, if_false]
          exact ⟨by omega, le_trans (by omega) hInv.five_le⟩
        · rw [hmore (by simp) h1R]
          exact mkExpr_valid s _
  · rcases mk_and_eval s args with ⟨h2, hno⟩
    by_cases hm : 2 ∈ s.flatten_tag 9 args
    · rw [h2 hm]
      exact Or.inl ⟨hm, rfl, rfl⟩
    · rcases hno hm with ⟨R, hsort, hmem, hnil, hone, hemp, hmore⟩
      refine Or.inr ⟨hm, R, hsort, ?_, ?_, ?_⟩
      · intro x
        rw [hmem x]
      · intro x hx
        have hel := flatten_tag_elem hInv (Or.inr rfl) hargs ((hmem x).mp hx).1
        exact ⟨hel.1, hel.2⟩
      · rcases R with - | ⟨a, - | ⟨b, rest⟩⟩
        · rw [hnil rfl]
          exact Or.inl ⟨rfl, rfl, rfl⟩
        · rw [hone a rfl]
          exact Or.inr (Or.inl ⟨rfl, rfl⟩)
        · by_cases h1R : 1 ∈ a :: b :: rest
          · have hres : s.mk_and args = (s, 2) := by
              rw [hemp (by simp) h1R, all_false_of_one_mem hInv h1R]
              simp
            rw [hres]
            exact Or.inr (Or.inr (Or.inl ⟨by simp, h1R, rfl, rfl⟩))
          · rw [hmore (by simp) h1R]
            refine Or.inr (Or.inr (Or.inr ⟨by simp, h1R, ?_⟩))
            rw [show ((fromNullable ((a :: b :: rest).all s.is_nullable) + 9) ::
                a :: b :: rest) =
              (Expr.eand (fromNullable ((a :: b :: rest).all s.is_nullable))
                (a :: b :: rest)).serialize from
              (serialize_eand _ _ fromNullable_or).symm]
            exact mkExpr_get_self s _

/-- 2-membership and 4-excluded membership of one flattened list match
those of a reference list. -/
def AndMatch (N M : List Nat) : Prop :=
  (2 ∈ N ↔ 2 ∈ M) ∧ (2 ∉ M → ∀ x, x ≠ 4 → (x ∈ N ↔ x ∈ M))

lemma andMatch_symm {N M : List Nat} (h : AndMatch N M) : AndMatch M N := by
  refine ⟨h.1.symm, fun h2 x hx => ?_⟩
  rw [h.2 (fun hc => h2 (h.1.mpr hc)) x hx]

lemma andMatch_append {N M C : List Nat} (h : AndMatch N M) :
    AndMatch (N ++ C) (M ++ C) := by
  constructor
  · rw [List.mem_append, List.mem_append, h.1]
  · intro h2 x hx
    have h2M : 2 ∉ M := fun hc => h2 (List.mem_append.mpr (Or.inl hc))
    rw [List.mem_append, List.mem_append, h.2 h2M x hx]

lemma andMatch_append_left {N M C : List Nat} (h : AndMatch N M) :
    AndMatch (C ++ N) (C ++ M) := by
  constructor
  · rw [List.mem_append, List.mem_append, h.1]
  · intro h2 x hx
    have h2M : 2 ∉ M := fun hc => h2 (List.mem_append.mpr (Or.inr hc))
    rw [List.mem_append, List.mem_append, h.2 h2M x hx]

/-- Splicing an `mk_and` result back into another `mk_and` argument
list: either it contributes exactly the original survivors, or the call
collapsed through the `had_empty` branch to `NoMatch`. -/
lemma mk_and_splice {s s' : ExprSet} {r : Nat} {M : List Nat}
    (hInv' : Inv s') (hO : AndOutcome s s' r M) :
    AndMatch (s'.flatten_tag 9 [r]) M ∨
    (r = 2 ∧ s' = s ∧ 2 ∉ M ∧ ∃ S, (∀ x, x ∈ S ↔ x ∈ M ∧ x ≠ 4) ∧
      List.Sorted (· < ·) S ∧ 1 ∈ S ∧ 2 ≤ S.length) := by
  rcases hO with ⟨h2, rfl, rfl⟩ | ⟨h2, S, hsort, hmem, hval, hcase⟩
  · left
    rw [flatten_tag_single, if_neg (by rw [base_tag2 hInv']; simp)]
    exact ⟨by simp [h2], fun hc => absurd h2 hc⟩
  · rcases hcase with ⟨rfl, rfl, rfl⟩ | ⟨hS, rfl⟩ | ⟨hlen, h1S, rfl, rfl⟩ |
      ⟨hlen, h1S, hget⟩
    · left
      rw [flatten_tag_single, if_neg (by rw [base_tag4 hInv']; simp)]
      refine ⟨by simp [h2], fun _ x hx => ?_⟩
      simp only [List.mem_singleton]
      constructor
      · rintro rfl
        exact absurd rfl hx
      · intro hxM
        exact absurd ((hmem x).mpr ⟨hxM, hx⟩) (by simp)
    · left
      subst hS
      rw [flatten_tag_single, if_neg (hval r (by simp)).2]
      have hrmem := (hmem r).mp (by simp)
      have hr2 : r ≠ 2 := by
        rintro rfl
        exact h2 hrmem.1
      refine ⟨?_, fun _ x hx => ?_⟩
      · simp only [List.mem_singleton]
        constructor
        · rintro h
          exact absurd h.symm hr2
        · intro hc
          exact absurd hc h2
      · simp only [List.mem_singleton]
        constructor
        · rintro rfl
          exact hrmem.1
        · intro hxM
          have := (hmem x).mpr ⟨hxM, hx⟩
          simpa using this
    · right
      exact ⟨rfl, rfl, h2, S, fun x => hmem x, hsort, h1S, hlen⟩
    · left
      have htagr : s'.get_tag r = some 9 := by
        unfold ExprSet.get_tag
        rw [hget]
        rcases fromNullable_or (b := S.all s.is_nullable) with hh | hh <;>
          rw [hh] <;> simp [tagOf]
      have hargsr : s'.get_args r = S := by
        unfold ExprSet.get_args
        rw [hget]
        rcases fromNullable_or (b := S.all s.is_nullable) with hh | hh <;>
          rw [hh] <;> simp [tagOf]
      rw [flatten_tag_single, if_pos htagr, hargsr]
      refine ⟨?_, fun _ x hx => ?_⟩
      · constructor
        · intro hc
          exact absurd ((hmem 2).mp hc).1 h2
        · intro hc
          exact absurd hc h2
      · rw [hmem x]
        constructor
        · rintro ⟨hxM, -⟩
          exact hxM
        · intro hxM
          exact ⟨hxM, hx⟩

/-- Re-running `mk_and` over matching flattened members returns the
same reference. -/
lemma mk_and_again {s s' s2 : ExprSet} {r : Nat} {M : List Nat}
    (hO : AndOutcome s s' r M) (hInv2 : Inv s2)
    (hEs : ExtendsTo s s2) (hEs' : ExtendsTo s' s2)
    {args2 : List Nat}
    (hmatch : AndMatch (s2.flatten_tag 9 args2) M) :
    (s2.mk_and args2).2 = r := by
  rcases mk_and_eval s2 args2 with ⟨h2, hno⟩
  rcases hO with ⟨h2M, rfl, rfl⟩ | ⟨h2M, S, hsort, hmem, hval, hcase⟩
  · rw [h2 (hmatch.1.mpr h2M)]
  · have h2M2 : 2 ∉ s2.flatten_tag 9 args2 := fun hc => h2M (hmatch.1.mp hc)
    rcases hno h2M2 with ⟨R, hsortR, hmemR, hnil, hone, hemp, hmore⟩
    have hRS : R = S := by
      apply sorted_lt_eq hsortR hsort
      intro x
      rw [hmemR x, hmem x]
      by_cases hx4 : x = 4
      · subst hx4
        simp
      · rw [hmatch.2 h2M x hx4]
    subst hRS
    rcases hcase with ⟨rfl, rfl, rfl⟩ | ⟨hS, rfl⟩ | ⟨hlen, h1R, rfl, rfl⟩ |
      ⟨hlen, h1R, hget⟩
    · rw [hnil rfl]
    · subst hS
      rw [hone r rfl]
    · rw [hemp hlen h1R, all_false_of_one_mem hInv2 h1R]
      simp
    · rw [hmore hlen h1R]
      have hflag : R.all s2.is_nullable = R.all s.is_nullable :=
        all_congr_valid hEs (fun x hx => (hval x hx).1)
      rw [hflag]
      have hpresent : s2.exprs.get r =
          some ((Expr.eand (fromNullable (R.all s.is_nullable)) R).serialize) := by
        rw [serialize_eand _ _ fromNullable_or]
        exact hEs'.get_raw hget
      rw [mkExpr_of_get hInv2.nodup hpresent]

/-- An `mk_and` call whose flattened arguments contain `EmptyString`
and at least two distinct non-`AnyString` members returns `NoMatch`:
either `NoMatch` is present (early return), or the surviving
`EmptyString`, wrongly flagged non-nullable, forces `NoMatch`. -/
lemma mk_and_he_result {s2 : ExprSet} (hInv2 : Inv s2) (args2 : List Nat)
    (h1M : 1 ∈ s2.flatten_tag 9 args2)
    (hpair : ∃ u v, u ∈ s2.flatten_tag 9 args2 ∧ v ∈ s2.flatten_tag 9 args2 ∧
      u ≠ v ∧ u ≠ 4 ∧ v ≠ 4) :
    (s2.mk_and args2).2 = 2 := by
  rcases mk_and_eval s2 args2 with ⟨h2, hno⟩
  by_cases hm : 2 ∈ s2.flatten_tag 9 args2
  · rw [h2 hm]
  · rcases hno hm with ⟨R, hsortR, hmemR, hnil, hone, hemp, hmore⟩
    rcases hpair with ⟨u, v, hu, hv, huv, hu4, hv4⟩
    have huR : u ∈ R := (hmemR u).mpr ⟨hu, hu4⟩
    have hvR : v ∈ R := (hmemR v).mpr ⟨hv, hv4⟩
    have hlen : 2 ≤ R.length := two_mem_two_le huR hvR huv
    have h1R : 1 ∈ R := (hmemR 1).mpr ⟨h1M, by decide⟩
    rw [hemp hlen h1R, all_false_of_one_mem hInv2 h1R]
    simp

lemma flatten_tag_stable {s s' : ExprSet} (hE : ExtendsTo s s') (t : Nat) :
    ∀ {args : List Nat}, (∀ x ∈ args, validRef s x) →
      s'.flatten_tag t args = s.flatten_tag t args := by
  intro args
  induction args with
  | nil => intro _; rfl
  | cons x rest ih =>
    intro h
    have hv := h x (by simp)
    have htl := ih (fun y hy => h y (by simp [hy]))
    unfold ExprSet.flatten_tag at htl ⊢
    simp only [List.flatMap_cons]
    rw [htl]
    simp only [hE.get_tag_eq hv, hE.get_args_eq hv]

lemma valid_pair {s : ExprSet} {x y : Nat} (hx : validRef s x)
    (hy : validRef s y) : ∀ z ∈ ([x, y] : List Nat), validRef s z := by
  intro z hz
  rcases List.mem_cons.mp hz with rfl | hz
  · exact hx
  · rw [List.mem_singleton.mp hz]
    exact hy

lemma valid_triple {s : ExprSet} {x y z : Nat} (hx : validRef s x)
    (hy : validRef s y) (hz : validRef s z) :
    ∀ w ∈ ([x, y, z] : List Nat), validRef s w := by
  intro w hw
  rcases List.mem_cons.mp hw with rfl | hw
  · exact hx
  · exact valid_pair hy hz w hw

lemma valid_single {s : ExprSet} {x : Nat} (hx : validRef s x) :
    ∀ z ∈ ([x] : List Nat), validRef s z := by
  intro z hz
  rw [List.mem_singleton.mp hz]
  exact hx

/-- C6: on a reachable store, `mk_or` (and `mk_and`) are associative
through the store: nesting a call's result as an argument of a second
call yields the same reference as the flat call, in either nesting
order, when the three expressions are built sequentially on the same
store. -/
theorem mk_or_and_assoc (s : ExprSet) (hs : Built s) (a b c : Nat)
    (ha : validRef s a) (hb : validRef s b) (hc : validRef s c) :
    (∀ s1 r1 s2 r2 s3 r3 s4 r4 s5 r5,
      s.mk_or [a, b] = (s1, r1) →
      s1.mk_or [r1, c] = (s2, r2) →
      s2.mk_or [a, b, c] = (s3, r3) →
      s3.mk_or [b, c] = (s4, r4) →
      s4.mk_or [a, r4] = (s5, r5) →
      r2 = r3 ∧ r3 = r5) ∧
    (∀ t1 u1 t2 u2 t3 u3 t4 u4 t5 u5,
      s.mk_and [a, b] = (t1, u1) →
      t1.mk_and [u1, c] = (t2, u2) →
      t2.mk_and [a, b, c] = (t3, u3) →
      t3.mk_and [b, c] = (t4, u4) →
      t4.mk_and [a, u4] = (t5, u5) →
      u2 = u3 ∧ u3 = u5) := by
  have hInv := built_inv hs
  constructor
  · intro s1 r1 s2 r2 s3 r3 s4 r4 s5 r5 e1 e2 e3 e4 e5
    have m1 := mk_or_main hInv (valid_pair ha hb)
    simp only [e1] at m1
    obtain ⟨hE1, hInv1, hval1, hO1⟩ := m1
    have m2 := mk_or_main hInv1 (valid_pair hval1 (hE1.valid_mono hc))
    simp only [e2] at m2
    obtain ⟨hE2, hInv2, hval2, hO2⟩ := m2
    have hE02 : ExtendsTo s s2 := extendsTo_trans hE1 hE2
    have m3 := mk_or_main hInv2
      (valid_triple (hE02.valid_mono ha) (hE02.valid_mono hb) (hE02.valid_mono hc))
    simp only [e3] at m3
    obtain ⟨hE3, hInv3, hval3, hO3⟩ := m3
    have hE03 : ExtendsTo s s3 := extendsTo_trans hE02 hE3
    have m4 := mk_or_main hInv3
      (valid_pair (hE03.valid_mono hb) (hE03.valid_mono hc))
    simp only [e4] at m4
    obtain ⟨hE4, hInv4, hval4, hO4⟩ := m4
    have hE04 : ExtendsTo s s4 := extendsTo_trans hE03 hE4
    have hsplit2 : s1.flatten_tag 8 [r1, c] =
        s1.flatten_tag 8 [r1] ++ s.flatten_tag 8 [c] := by
      rw [show ([r1, c] : List Nat) = [r1] ++ [c] from rfl, flatten_tag_append,
        flatten_tag_stable hE1 8 (valid_single hc)]
    have hm2 : OrMatch (s1.flatten_tag 8 [r1, c]) (s.flatten_tag 8 [a, b, c]) := by
      rw [hsplit2, show ([a, b, c] : List Nat) = [a, b] ++ [c] from rfl,
        flatten_tag_append]
      exact orMatch_append (mk_or_splice hInv1 hO1)
    have hM3eq : s2.flatten_tag 8 [a, b, c] = s.flatten_tag 8 [a, b, c] :=
      flatten_tag_stable hE02 8 (valid_triple ha hb hc)
    have h23 : (s2.mk_or [a, b, c]).2 = r2 :=
      mk_or_again hO2 hInv2 hE2 (extendsTo_refl s2)
        (by rw [hM3eq]; exact orMatch_symm hm2)
    rw [e3] at h23
    refine ⟨h23.symm, ?_⟩
    have hM4eq : s3.flatten_tag 8 [b, c] = s.flatten_tag 8 [b, c] :=
      flatten_tag_stable hE03 8 (valid_pair hb hc)
    have hsplit5 : s4.flatten_tag 8 [a, r4] =
        s.flatten_tag 8 [a] ++ s4.flatten_tag 8 [r4] := by
      rw [show ([a, r4] : List Nat) = [a] ++ [r4] from rfl, flatten_tag_append,
        flatten_tag_stable hE04 8 (valid_single ha)]
    have hm5 : OrMatch (s4.flatten_tag 8 [a, r4]) (s2.flatten_tag 8 [a, b, c]) := by
      rw [hsplit5, hM3eq, show ([a, b, c] : List Nat) = [a] ++ [b, c] from rfl,
        flatten_tag_append]
      apply orMatch_append_left
      have hsp := mk_or_splice hInv4 hO4
      rw [hM4eq] at hsp
      exact hsp
    have h35 : (s4.mk_or [a, r4]).2 = r3 :=
      mk_or_again hO3 hInv4 (extendsTo_trans hE3 hE4) hE4 hm5
    rw [e5] at h35
    exact h35.symm
  · intro t1 u1 t2 u2 t3 u3 t4 u4 t5 u5 e1 e2 e3 e4 e5
    have m1 := mk_and_main hInv (valid_pair ha hb)
    simp only [e1] at m1
    obtain ⟨hE1, hInv1, hval1, hO1⟩ := m1
    have m2 := mk_and_main hInv1 (valid_pair hval1 (hE1.valid_mono hc))
    simp only [e2] at m2
    obtain ⟨hE2, hInv2, hval2, hO2⟩ := m2
    have hE02 : ExtendsTo s t2 := extendsTo_trans hE1 hE2
    have m3 := mk_and_main hInv2
      (valid_triple (hE02.valid_mono ha) (hE02.valid_mono hb) (hE02.valid_mono hc))
    simp only [e3] at m3
    obtain ⟨hE3, hInv3, hval3, hO3⟩ := m3
    have hE03 : ExtendsTo s t3 := extendsTo_trans hE02 hE3
    have m4 := mk_and_main hInv3
      (valid_pair (hE03.valid_mono hb) (hE03.valid_mono hc))
    simp only [e4] at m4
    obtain ⟨hE4, hInv4, hval4, hO4⟩ := m4
    have hE04 : ExtendsTo s t4 := extendsTo_trans hE03 hE4
    have hM3eq : t2.flatten_tag 9 [a, b, c] = s.flatten_tag 9 [a, b, c] :=
      flatten_tag_stable hE02 9 (valid_triple ha hb hc)
    have habc9 : s.flatten_tag 9 [a, b, c] =
        s.flatten_tag 9 [a, b] ++ s.flatten_tag 9 [c] := by
      rw [show ([a, b, c] : List Nat) = [a, b] ++ [c] from rfl, flatten_tag_append]
    have habc9' : s.flatten_tag 9 [a, b, c] =
        s.flatten_tag 9 [a] ++ s.flatten_tag 9 [b, c] := by
      rw [show ([a, b, c] : List Nat) = [a] ++ [b, c] from rfl, flatten_tag_append]
    constructor
    · rcases mk_and_splice hInv1 hO1 with hmA |
        ⟨hu1, ht1, h2M, S, hmemS, hsortS, h1S, hlenS⟩
      · have hsplit2 : t1.flatten_tag 9 [u1, c] =
            t1.flatten_tag 9 [u1] ++ s.flatten_tag 9 [c] := by
          rw [show ([u1, c] : List Nat) = [u1] ++ [c] from rfl, flatten_tag_append,
            flatten_tag_stable hE1 9 (valid_single hc)]
        have hm2 : AndMatch (t1.flatten_tag 9 [u1, c])
            (s.flatten_tag 9 [a, b, c]) := by
          rw [hsplit2, habc9]
          exact andMatch_append hmA
        have h23 : (t2.mk_and [a, b, c]).2 = u2 :=
          mk_and_again hO2 hInv2 hE2 (extendsTo_refl t2)
            (by rw [hM3eq]; exact andMatch_symm hm2)
        rw [e3] at h23
        exact h23.symm
      · rw [ht1, hu1] at e2
        have h2mem : 2 ∈ s.flatten_tag 9 [2, c] := by
          rw [show ([2, c] : List Nat) = [2] ++ [c] from rfl, flatten_tag_append]
          apply List.mem_append.mpr
          left
          rw [flatten_tag_single, if_neg (by rw [base_tag2 hInv]; simp)]
          simp
        have hx := (mk_and_eval s [2, c]).1 h2mem
        rw [e2] at hx
        injection hx with ht2 hu2
        obtain ⟨x, y, tl, hSxy⟩ : ∃ x y tl, S = x :: y :: tl := by
          rcases S with - | ⟨x, - | ⟨y, tl⟩⟩
          · simp at hlenS
          · simp at hlenS
          · exact ⟨x, y, tl, rfl⟩
        have hxy : x ≠ y := by
          have := (List.sorted_cons.mp (hSxy ▸ hsortS)).1 y (by simp)
          omega
        have hxS : x ∈ S := by rw [hSxy]; simp
        have hyS : y ∈ S := by rw [hSxy]; simp
        have hxM := (hmemS x).mp hxS
        have hyM := (hmemS y).mp hyS
        have h1M := (hmemS 1).mp h1S
        have hlift : ∀ z, z ∈ s.flatten_tag 9 [a, b] →
            z ∈ s.flatten_tag 9 [a, b, c] := by
          intro z hz
          rw [habc9]
          exact List.mem_append.mpr (Or.inl hz)
        have h3 := mk_and_he_result hInv2 [a, b, c]
          (by rw [hM3eq]; exact hlift 1 h1M.1)
          ⟨x, y, by rw [hM3eq]; exact hlift x hxM.1,
            by rw [hM3eq]; exact hlift y hyM.1, hxy, hxM.2, hyM.2⟩
        rw [e3] at h3
        rw [hu2]
        exact h3.symm
    · rcases mk_and_splice hInv4 hO4 with hmA |
        ⟨hu4, ht4, h2M4, S4, hmemS4, hsortS4, h1S4, hlenS4⟩
      · have hM4eq : t3.flatten_tag 9 [b, c] = s.flatten_tag 9 [b, c] :=
          flatten_tag_stable hE03 9 (valid_pair hb hc)
        have hsplit5 : t4.flatten_tag 9 [a, u4] =
            s.flatten_tag 9 [a] ++ t4.flatten_tag 9 [u4] := by
          rw [show ([a, u4] : List Nat) = [a] ++ [u4] from rfl, flatten_tag_append,
            flatten_tag_stable hE04 9 (valid_single ha)]
        have hm5 : AndMatch (t4.flatten_tag 9 [a, u4])
            (t2.flatten_tag 9 [a, b, c]) := by
          rw [hsplit5, hM3eq, habc9']
          apply andMatch_append_left
          rw [hM4eq] at hmA
          exact hmA
        have h35 : (t4.mk_and [a, u4]).2 = u3 :=
          mk_and_again hO3 hInv4 (extendsTo_trans hE3 hE4) hE4 hm5
        rw [e5] at h35
        exact h35.symm
      · rw [ht4, hu4] at e5
        have hM4eq : t3.flatten_tag 9 [b, c] = s.flatten_tag 9 [b, c] :=
          flatten_tag_stable hE03 9 (valid_pair hb hc)
        rw [hM4eq] at hmemS4
        have h2mem : 2 ∈ t3.flatten_tag 9 [a, 2] := by
          rw [show ([a, 2] : List Nat) = [a] ++ [2] from rfl, flatten_tag_append]
          apply List.mem_append.mpr
          right
          rw [flatten_tag_single, if_neg (by rw [base_tag2 hInv3]; simp)]
          simp
        have hx := (mk_and_eval t3 [a, 2]).1 h2mem
        rw [e5] at hx
        injection hx with ht5 hu5
        obtain ⟨x, y, tl, hSxy⟩ : ∃ x y tl, S4 = x :: y :: tl := by
          rcases S4 with - | ⟨x, - | ⟨y, tl⟩⟩
          · simp at hlenS4
          · simp at hlenS4
          · exact ⟨x, y, tl, rfl⟩
        have hxy : x ≠ y := by
          have := (List.sorted_cons.mp (hSxy ▸ hsortS4)).1 y (by simp)
          omega
        have hxM := (hmemS4 x).mp (by rw [hSxy]; simp)
        have hyM := (hmemS4 y).mp (by rw [hSxy]; simp)
        have h1M := (hmemS4 1).mp h1S4
        have hlift : ∀ z, z ∈ s.flatten_tag 9 [b, c] →
            z ∈ s.flatten_tag 9 [a, b, c] := by
          intro z hz
          rw [habc9']
          exact List.mem_append.mpr (Or.inr hz)
        have h3 := mk_and_he_result hInv2 [a, b, c]
          (by rw [hM3eq]; exact hlift 1 h1M.1)
          ⟨x, y, by rw [hM3eq]; exact hlift x hxM.1,
            by rw [hM3eq]; exact hlift y hyM.1, hxy, hxM.2, hyM.2⟩
        rw [e3] at h3
        rw [hu5]
        exact h3

theorem mk_or_and_assoc_witness :
    (let s := ExprSet.new 256
     let p1 := s.mk_or [1, 3]
     let p2 := p1.1.mk_or [p1.2, 5]
     let p3 := p2.1.mk_or [1, 3, 5]
     let p4 := p3.1.mk_or [3, 5]
     let p5 := p4.1.mk_or [1, p4.2]
     p2.2 = p3.2 ∧ p3.2 = p5.2) ∧
    (let s := ExprSet.new 256
     let q1 := s.mk_and [1, 3]
     let q2 := q1.1.mk_and [q1.2, 5]
     let q3 := q2.1.mk_and [1, 3, 5]
     let q4 := q3.1.mk_and [3, 5]
     let q5 := q4.1.mk_and [1, q4.2]
     q2.2 = q3.2 ∧ q3.2 = q5.2) := by
  have h := mk_or_and_assoc (ExprSet.new 256) (Built.new 256 (by decide)) 1 3 5
    (by decide) (by decide) (by decide)
  exact ⟨h.1 _ _ _ _ _ _ _ _ _ _ rfl rfl rfl rfl rfl,
    h.2 _ _ _ _ _ _ _ _ _ _ rfl rfl rfl rfl rfl⟩
